import Mathlib

/-! Ingestion API: batching, priority queue, throttled dispatcher.

A shallow embedding of `backend/src/index.js` (an Express service holding its
state in three module-level variables `requests`, `processingQueue` and
`lastProcessedTime`) together with the properties of the batching, the
priority queue, the status reducer and the dispatcher loop.

Conventions of the embedding.

* A decoded JSON request body is a `JsVal`.  A JavaScript number is observed
  by the handler only through `Number.isInteger`, `<`, `>`, truthiness and
  string coercion, so a number is either `int z` (its value is the integer
  `z`) or `nonInt text` (its value is not an integer; `text` is its string
  form).
* `uuidv4()` and `Date.now()` are the environment of a handler: the fresh
  identifiers and the milliseconds that elapse before each clock reading are
  supplied by an `IngestEnv`.  The clock never goes backwards.
* Timestamps are integers (milliseconds); differences are taken in `Int` as
  the JavaScript subtraction does.
* `{...batch, ingestionId, priority, priorityValue}` builds a new object: the
  queue entry is a value of its own (`QueueEntry`), distinct from the `Batch`
  kept in the request record.
-/

namespace Ingestion

/-! ## JavaScript values -/

/-- A decoded JSON value, or `undefined` for a property that is absent. -/
inductive JsVal where
  | undefined
  | null
  | bool (b : Bool)
  | int (z : Int)
  | nonInt (text : String)
  | str (s : String)
  | arr (xs : List JsVal)
  | obj

namespace JsVal

mutual
/-- The abstract operation ToString: the array case is `Array.prototype.join`
with the separator `","`, where `undefined` and `null` elements give the empty
string. -/
def toStr : JsVal → String
  | undefined => "undefined"
  | null => "null"
  | bool b => if b then "true" else "false"
  | int z => toString z
  | nonInt t => t
  | str s => s
  | arr xs => joinStr xs
  | obj => "[object Object]"
termination_by structural v => v
/-- The elements of an array joined by a comma. -/
def joinStr : List JsVal → String
  | [] => ""
  | x :: rest =>
    (match x with
      | undefined => ""
      | null => ""
      | v => toStr v)
    ++ (match rest with
      | [] => ""
      | _ => ",")
    ++ joinStr rest
termination_by structural v => v
end

/-- Truthiness, as tested by `!priority`. -/
def truthy : JsVal → Bool
  | undefined => false
  | null => false
  | bool b => b
  | int z => z != 0
  | nonInt _ => true
  | str s => s != ""
  | arr _ => true
  | obj => true

/-- The result of `Array.isArray`, with the elements when it is true. -/
def asArray : JsVal → Option (List JsVal)
  | arr xs => some xs
  | _ => none

end JsVal

/-! ## Constants -/

/-- The object `PRIORITY_LEVELS`, as its list of own properties. -/
def PRIORITY_LEVELS : List (String × Int) :=
  [("HIGH", 0), ("MEDIUM", 1), ("LOW", 2)]

/-- `PRIORITY_LEVELS.hasOwnProperty(v)` and `PRIORITY_LEVELS[v]` in one lookup:
the argument is first coerced to a property key, that is to a string. -/
def priorityLevel (v : JsVal) : Option Int :=
  PRIORITY_LEVELS.lookup v.toStr

/-- The three values of `BatchStatus`. -/
inductive BatchStatus where
  | YET_TO_START
  | TRIGGERED
  | COMPLETED
  deriving DecidableEq, Repr

/-- The three values of `OverallStatus`. -/
inductive OverallStatus where
  | YET_TO_START
  | TRIGGERED
  | COMPLETED
  deriving DecidableEq, Repr

/-- The string a batch status is serialised as. -/
def BatchStatus.text : BatchStatus → String
  | .YET_TO_START => "yet_to_start"
  | .TRIGGERED => "triggered"
  | .COMPLETED => "completed"

/-- The string an overall status is serialised as. -/
def OverallStatus.text : OverallStatus → String
  | .YET_TO_START => "yet_to_start"
  | .TRIGGERED => "triggered"
  | .COMPLETED => "completed"

/-! ## Data model -/

/-- The object `batch` built in the split loop and kept in `request.batches`. -/
structure Batch where
  batchId : String
  ids : List JsVal
  status : BatchStatus
  createdAt : Int

/-- The object pushed on `processingQueue`: a copy of the batch's four
properties extended with three more. -/
structure QueueEntry where
  batchId : String
  ids : List JsVal
  status : BatchStatus
  createdAt : Int
  ingestionId : String
  priority : JsVal
  priorityValue : Int

/-- The record stored in the map `requests`. -/
structure Request where
  ingestionId : String
  ids : List JsVal
  priority : JsVal
  batches : List Batch
  createdAt : Int

/-- The module-level variables. `requests` is a `Map`, kept as an association
list in insertion order. -/
structure State where
  requests : List (String × Request)
  processingQueue : List QueueEntry
  lastProcessedTime : Option Int

/-- The state at start-up. -/
def State.init : State :=
  { requests := [], processingQueue := [], lastProcessedTime := none }

/-- `requests.get(key)`. -/
def mapGet (m : List (String × Request)) (key : String) : Option Request :=
  m.lookup key

/-- `requests.set(key, value)`: replaces the value of a key that is present,
appends the pair otherwise. -/
def mapSet : List (String × Request) → String → Request → List (String × Request)
  | [], key, value => [(key, value)]
  | (k, v) :: rest, key, value =>
    if k = key then (k, value) :: rest else (k, v) :: mapSet rest key value

/-! ## POST /ingest -/

/-- The decoded request body, destructured as `{ ids, priority }`. -/
structure Body where
  ids : JsVal
  priority : JsVal

/-- What `uuidv4()` and `Date.now()` give during one run of the handler:
`batchUuid i` and `delay i` belong to the loop iteration with index `i`
(`delay i` is the time elapsed since the previous clock reading), and
`finalDelay` precedes the reading that stamps the request. -/
structure IngestEnv where
  ingestionId : String
  batchUuid : Nat → String
  delay : Nat → Nat
  finalDelay : Nat

/-- The test of the identifier loop:
`!Number.isInteger(id) || id < 1 || id > 1e9 + 7`. -/
def invalidId : JsVal → Bool
  | .int z => z < 1 || z > 1000000007
  | _ => true

/-- The split loop `for (let i = 0; i < ids.length; i += 3)`, started at index
`i` with the clock at `clock`; the first argument bounds the number of
iterations. Each iteration takes `ids.slice(i, i + 3)`. -/
def splitLoop (ids : List JsVal) (env : IngestEnv) : Nat → Nat → Int → List Batch
  | 0, _, _ => []
  | fuel + 1, i, clock =>
    if i < ids.length then
      let now := clock + env.delay i
      { batchId := env.batchUuid i
        ids := (ids.drop i).take 3
        status := BatchStatus.YET_TO_START
        createdAt := now } :: splitLoop ids env fuel (i + 3) now
    else []

/-- The batches of a submission: the split loop run from index 0. It makes
fewer than `ids.length + 1` iterations. -/
def makeBatches (ids : List JsVal) (env : IngestEnv) (clock : Int) : List Batch :=
  splitLoop ids env (ids.length + 1) 0 clock

/-- The queue entry `{...batch, ingestionId, priority, priorityValue}`. -/
def toEntry (ingestionId : String) (priority : JsVal) (priorityValue : Int)
    (batch : Batch) : QueueEntry :=
  { batchId := batch.batchId
    ids := batch.ids
    status := batch.status
    createdAt := batch.createdAt
    ingestionId := ingestionId
    priority := priority
    priorityValue := priorityValue }

/-- The comparator given to `processingQueue.sort`. -/
def compareEntries (a b : QueueEntry) : Int :=
  if a.priorityValue ≠ b.priorityValue then a.priorityValue - b.priorityValue
  else a.createdAt - b.createdAt

/-- The order the comparator induces: `a` may stand before `b`. -/
def entryLe (a b : QueueEntry) : Prop := compareEntries a b ≤ 0

instance : DecidableRel entryLe := fun a b => by unfold entryLe; infer_instance

/-- `processingQueue.sort(compare)`: `Array.prototype.sort` is a stable sort,
and for a comparator that is a total preorder every stable sort gives the same
array; insertion sort is the one evaluated here. -/
def sortQueue (q : List QueueEntry) : List QueueEntry :=
  q.insertionSort entryLe

/-- The reply of `POST /ingest`. -/
inductive IngestResponse where
  | ok (ingestion_id : String)
  | badRequest (error : String)

/-- The HTTP status code of the reply. -/
def IngestResponse.code : IngestResponse → Nat
  | .ok _ => 200
  | .badRequest _ => 400

/-- The clock reading of the last batch, or the clock at entry when there is
no batch. -/
def lastReading (clock : Int) (batches : List Batch) : Int :=
  match batches.getLast? with
  | some b => b.createdAt
  | none => clock

/-- What one run of the `POST /ingest` handler does: the state it leaves, its
reply, the clock at exit, and the arguments of its `processingQueue.push`
calls in the order of the calls. -/
structure IngestResult where
  state : State
  response : IngestResponse
  clock : Int
  pushed : List QueueEntry

/-- The handler of `POST /ingest`, run on state `s` with the clock at `clock`. -/
def postIngest (s : State) (clock : Int) (body : Body) (env : IngestEnv) : IngestResult :=
  match body.ids.asArray with
  | none => ⟨s, .badRequest "Invalid input", clock, []⟩
  | some ids =>
    if !body.priority.truthy then ⟨s, .badRequest "Invalid input", clock, []⟩
    else
      match priorityLevel body.priority with
      | none => ⟨s, .badRequest "Invalid input", clock, []⟩
      | some priorityValue =>
        if ids.any invalidId then
          ⟨s, .badRequest "IDs must be integers between 1 and 10^9 + 7", clock, []⟩
        else
          let batches := makeBatches ids env clock
          let entries := batches.map (toEntry env.ingestionId body.priority priorityValue)
          let now := lastReading clock batches + env.finalDelay
          let request : Request :=
            { ingestionId := env.ingestionId
              ids := ids
              priority := body.priority
              batches := batches
              createdAt := now }
          ⟨{ requests := mapSet s.requests env.ingestionId request
             processingQueue := sortQueue (s.processingQueue ++ entries)
             lastProcessedTime := s.lastProcessedTime },
           .ok env.ingestionId, now, entries⟩

/-! ## GET /status/:ingestionId -/

/-- The overall status computed by the status handler from `request.batches`. -/
def overallStatus (batches : List Batch) : OverallStatus :=
  if batches.any (fun batch => batch.status = BatchStatus.TRIGGERED) then
    OverallStatus.TRIGGERED
  else if batches.all (fun batch => batch.status = BatchStatus.COMPLETED) then
    OverallStatus.COMPLETED
  else OverallStatus.YET_TO_START

/-- The reply of `GET /status/:ingestionId`. -/
inductive StatusResponse where
  | ok (ingestion_id : String) (status : OverallStatus) (batches : List Batch)
  | notFound (error : String)

/-- The HTTP status code of the reply. -/
def StatusResponse.code : StatusResponse → Nat
  | .ok _ _ _ => 200
  | .notFound _ => 404

/-- The handler of `GET /status/:ingestionId`. -/
def getStatus (s : State) (ingestionId : String) : StatusResponse :=
  match mapGet s.requests ingestionId with
  | none => .notFound "Ingestion request not found"
  | some request => .ok ingestionId (overallStatus request.batches) request.batches

/-! ## The dispatcher loop `processQueue` -/

/-- Where the coroutine `processQueue` is suspended.

* `loopTop`: at the head of `while (true)`;
* `idle wake`: in the `else` branch, awaiting its 1000 ms timeout;
* `throttled wake`: awaiting the throttle timeout, `shift()` comes next;
* `working batch remaining wake`: in the `for` loop over `batch.ids`, awaiting
  the timeout of the first identifier of `remaining`;
* `crashed`: the promise was rejected (`shift()` on an empty queue gives
  `undefined`, whose property `ingestionId` cannot be read).

A timeout set at time `t` for `d` ms is over once the clock has reached
`wake = t + d`. -/
inductive Dispatcher where
  | loopTop
  | idle (wake : Int)
  | throttled (wake : Int)
  | working (batch : QueueEntry) (remaining : List JsVal) (wake : Int)
  | crashed

/-- The whole system: the module-level variables, the clock, and the point
where the dispatcher stands. -/
structure Sys where
  state : State
  clock : Int
  dispatcher : Dispatcher

/-- What the dispatcher and the intake do that the properties speak of. -/
inductive Obs where
  | pushed (entry : QueueEntry)
  | shifted (entry : QueueEntry)
  | triggered (entry : QueueEntry) (time : Int)
  | completed (entry : QueueEntry) (time : Int)

/-- The end of the work on a batch: `batch.status = BatchStatus.COMPLETED;
lastProcessedTime = Date.now()`. -/
def finishBatch (s : Sys) (batch : QueueEntry) : Sys × List Obs :=
  let done : QueueEntry := { batch with status := BatchStatus.COMPLETED }
  ({ s with
      state := { s.state with lastProcessedTime := some s.clock }
      dispatcher := Dispatcher.loopTop },
   [Obs.completed done s.clock])

/-- From `const batch = processingQueue.shift()` to the first timeout of the
`for` loop. A batch without identifiers is completed at once, and an entry
whose request is missing is dropped; in both cases the coroutine is back at
the head of the loop. -/
def startBatch (s : Sys) : Sys × List Obs :=
  match s.state.processingQueue with
  | [] => ({ s with dispatcher := Dispatcher.crashed }, [])
  | batch :: rest =>
    let s1 : Sys := { s with state := { s.state with processingQueue := rest } }
    match mapGet s1.state.requests batch.ingestionId with
    | none => ({ s1 with dispatcher := Dispatcher.loopTop }, [Obs.shifted batch])
    | some _ =>
      let running : QueueEntry := { batch with status := BatchStatus.TRIGGERED }
      match running.ids with
      | [] =>
        let r := finishBatch s1 running
        (r.1, Obs.shifted batch :: Obs.triggered running s.clock :: r.2)
      | _ :: _ =>
        ({ s1 with dispatcher := Dispatcher.working running running.ids (s.clock + 1000) },
         [Obs.shifted batch, Obs.triggered running s.clock])

/-- One pass through the head of the loop: the test
`processingQueue.length > 0`, the throttle test
`lastProcessedTime && now - lastProcessedTime < 5000`, and what follows until
the next timeout. -/
def loopHead (s : Sys) : Sys × List Obs :=
  if s.state.processingQueue.length > 0 then
    let now := s.clock
    match s.state.lastProcessedTime with
    | none => startBatch s
    | some last =>
      if last ≠ 0 ∧ now - last < 5000 then
        ({ s with dispatcher := Dispatcher.throttled (now + (5000 - (now - last))) }, [])
      else startBatch s
  else ({ s with dispatcher := Dispatcher.idle (s.clock + 1000) }, [])

/-- The coroutine is resumed: nothing happens while its timeout is pending;
otherwise it runs to its next timeout. After the last identifier of a batch
the batch is finished and the loop goes on with its next pass. -/
def resume (s : Sys) : Sys × List Obs :=
  match s.dispatcher with
  | .loopTop => loopHead s
  | .idle wake => if wake ≤ s.clock then loopHead s else (s, [])
  | .throttled wake => if wake ≤ s.clock then startBatch s else (s, [])
  | .working batch remaining wake =>
    if wake ≤ s.clock then
      match remaining with
      | _ :: id :: rest =>
        ({ s with dispatcher := Dispatcher.working batch (id :: rest) (s.clock + 1000) }, [])
      | _ =>
        let r := finishBatch s batch
        let r2 := loopHead r.1
        (r2.1, r.2 ++ r2.2)
    else (s, [])
  | .crashed => (s, [])

/-! ## The system as a transition system -/

/-- What can happen: time passes, a request arrives, the dispatcher's timeout
is served. -/
inductive Event where
  | tick (ms : Nat)
  | ingest (body : Body) (env : IngestEnv)
  | status (ingestionId : String)
  | timer

/-- One event. -/
def step (s : Sys) : Event → Sys × List Obs
  | .tick ms => ({ s with clock := s.clock + ms }, [])
  | .ingest body env =>
    let r := postIngest s.state s.clock body env
    ({ s with state := r.state, clock := r.clock }, r.pushed.map Obs.pushed)
  | .status _ => (s, [])
  | .timer => resume s

/-- A sequence of events, with the observations in order. -/
def run (s : Sys) : List Event → Sys × List Obs
  | [] => (s, [])
  | ev :: evs =>
    let r := step s ev
    let r2 := run r.1 evs
    (r2.1, r.2 ++ r2.2)

/-- The system at start-up, the clock reading `clock`: `processQueue()` has
found the queue empty and waits in its `else` branch. -/
def Sys.init (clock : Int) : Sys :=
  { state := State.init, clock := clock, dispatcher := Dispatcher.idle (clock + 1000) }

/-- The states the system can be in. -/
def Reachable (s : Sys) : Prop :=
  ∃ clock evs, 0 ≤ clock ∧ (run (Sys.init clock) evs).1 = s

/-- The entries taken off the queue, in order. -/
def shiftedLog : List Obs → List QueueEntry
  | [] => []
  | Obs.shifted e :: rest => e :: shiftedLog rest
  | _ :: rest => shiftedLog rest

/-- The entries pushed on the queue, in order. -/
def pushedLog : List Obs → List QueueEntry
  | [] => []
  | Obs.pushed e :: rest => e :: pushedLog rest
  | _ :: rest => pushedLog rest

/-- The times at which a batch was marked triggered, in order. -/
def triggerTimes : List Obs → List Int
  | [] => []
  | Obs.triggered _ t :: rest => t :: triggerTimes rest
  | _ :: rest => triggerTimes rest

/-! ## Invariants -/

/-- The effect of a piece of the dispatcher on the queue: the clock, the
requests and the pushes are untouched, and either the queue is as it was or
its head has been shifted off. -/
def QueueEffect (s : Sys) (r : Sys × List Obs) : Prop :=
  r.1.clock = s.clock ∧ r.1.state.requests = s.state.requests ∧ pushedLog r.2 = [] ∧
  ((r.1.state.processingQueue = s.state.processingQueue ∧ shiftedLog r.2 = []) ∨
   (∃ e, s.state.processingQueue = e :: r.1.state.processingQueue ∧ shiftedLog r.2 = [e]))

/-- The invariant of the queue: it is sorted by the comparator, and no entry
is stamped later than the clock. -/
def QueueInv (s : Sys) : Prop :=
  s.state.processingQueue.Sorted entryLe ∧ ∀ e ∈ s.state.processingQueue, e.createdAt ≤ s.clock

/-- The throttle baseline covers the last trigger: if a batch has been
triggered, `lastProcessedTime` is set, is not 0 (so it is truthy) and is not
earlier than that trigger. -/
def Baseline (s : Sys) (T : List Int) : Prop :=
  ∀ t ∈ T.getLast?, ∃ last, s.state.lastProcessedTime = some last ∧ last ≠ 0 ∧ t ≤ last

/-- What the dispatcher's position says about the last trigger time. -/
def DispatcherInv (s : Sys) (T : List Int) : Dispatcher → Prop
  | .loopTop => Baseline s T
  | .idle _ => Baseline s T
  | .throttled wake => Baseline s T ∧ ∀ t ∈ T.getLast?, t + 5000 ≤ wake
  | .working _ _ wake => ∀ t ∈ T.getLast?, 0 ≤ t ∧ t + 1000 ≤ wake
  | .crashed => True

/-- The invariant behind the throttle: `T` is the list of trigger times so
far. -/
def ThrottleInv (s : Sys) (T : List Int) : Prop :=
  0 ≤ s.clock ∧ T.Chain' (fun a b => a + 5000 ≤ b) ∧
  (∀ e ∈ s.state.processingQueue, e.ids ≠ []) ∧ DispatcherInv s T s.dispatcher

/-! ## Requests and runs used as examples -/

/-- A request of seven identifiers, as in the test `Batch size`. -/
def sevenIds : Body :=
  { ids := JsVal.arr [.int 1, .int 2, .int 3, .int 4, .int 5, .int 6, .int 7]
    priority := JsVal.str "MEDIUM" }

/-- An environment: identifiers built from the loop index, no time elapsing. -/
def envOf (ingestionId : String) : IngestEnv :=
  { ingestionId := ingestionId
    batchUuid := fun i => ingestionId ++ "-" ++ toString i
    delay := fun _ => 0
    finalDelay := 0 }

/-- A store holding one submission whose two batches are completed and
triggered. -/
def mixedStore : State :=
  { requests :=
      [("a",
        { ingestionId := "a"
          ids := [.int 1, .int 2, .int 3, .int 4]
          priority := JsVal.str "HIGH"
          batches :=
            [{ batchId := "a-0", ids := [.int 1, .int 2, .int 3],
               status := BatchStatus.COMPLETED, createdAt := 0 },
             { batchId := "a-3", ids := [.int 4],
               status := BatchStatus.TRIGGERED, createdAt := 0 }]
          createdAt := 0 })]
    processingQueue := []
    lastProcessedTime := none }

/-- A request whose `priority` is the array `["HIGH"]`. -/
def arrayPriority : Body :=
  { ids := JsVal.arr [.int 1], priority := JsVal.arr [.str "HIGH"] }

/-- A LOW request of four identifiers. -/
def lowBody : Body :=
  { ids := JsVal.arr [.int 1, .int 2, .int 3, .int 4], priority := JsVal.str "LOW" }

/-- A HIGH request of four identifiers. -/
def highBody : Body :=
  { ids := JsVal.arr [.int 5, .int 6, .int 7, .int 8], priority := JsVal.str "HIGH" }

/-- A LOW request, then after 10 ms a HIGH request. -/
def lowThenHigh : List Event :=
  [Event.ingest lowBody (envOf "low"), Event.tick 10, Event.ingest highBody (envOf "high")]

/-- The system after a LOW request of four identifiers. -/
def lowQueued : Sys := (run (Sys.init 0) [Event.ingest lowBody (envOf "low")]).1

/-- The first entry of that LOW request. -/
def lowEntry : QueueEntry :=
  { batchId := "low-0"
    ids := [.int 1, .int 2, .int 3]
    status := BatchStatus.YET_TO_START
    createdAt := 0
    ingestionId := "low"
    priority := JsVal.str "LOW"
    priorityValue := 2 }

/-- Time passing and the dispatcher being served, until three batches have
been taken off the queue. -/
def drain : List Event :=
  [Event.tick 10000, Event.timer, Event.tick 10000, Event.timer, Event.tick 10000, Event.timer,
   Event.tick 10000, Event.timer, Event.tick 10000, Event.timer, Event.tick 10000, Event.timer,
   Event.tick 10000, Event.timer]

/-- A HIGH request of one identifier. -/
def oneId : Body :=
  { ids := JsVal.arr [.int 1], priority := JsVal.str "HIGH" }

/-- The request arrives, a second passes, the dispatcher takes the batch. -/
def untilStarted : List Event :=
  [Event.ingest oneId (envOf "a"), Event.tick 1000, Event.timer]

/-- The same, then a second passes and the dispatcher finishes the batch. -/
def untilFinished : List Event :=
  [Event.ingest oneId (envOf "a"), Event.tick 1000, Event.timer, Event.tick 1000, Event.timer]

/-- The batch of that request as the store keeps it. -/
def storedBatch : Batch :=
  { batchId := "a-0", ids := [.int 1], status := BatchStatus.YET_TO_START, createdAt := 0 }

/-- The queue entry of that request. -/
def queuedEntry : QueueEntry :=
  { batchId := "a-0"
    ids := [.int 1]
    status := BatchStatus.YET_TO_START
    createdAt := 0
    ingestionId := "a"
    priority := JsVal.str "HIGH"
    priorityValue := 0 }

/-- A LOW and a HIGH request, then the dispatcher at work on three batches. -/
def busyRun : List Event := lowThenHigh ++ drain

/-! ## Statuses, the store and freshness -/

/-- The order of the statuses: yet_to_start, then triggered, then completed. -/
def BatchStatus.rank : BatchStatus → Nat
  | .YET_TO_START => 0
  | .TRIGGERED => 1
  | .COMPLETED => 2

/-- The queue entry the dispatcher holds in its local variable `batch` while it
is in the `for` loop. -/
def inFlight : Dispatcher → Option QueueEntry
  | .working batch _ _ => some batch
  | _ => none

/-- Every batch record of the store has status yet_to_start. -/
def StoreInv (st : State) : Prop :=
  ∀ p ∈ st.requests, ∀ b ∈ p.2.batches, b.status = BatchStatus.YET_TO_START

/-- Every queued entry has status yet_to_start, and the entry the dispatcher
works on has status triggered. -/
def StatusInv (s : Sys) : Prop :=
  (∀ e ∈ s.state.processingQueue, e.status = BatchStatus.YET_TO_START) ∧
  ∀ b, inFlight s.dispatcher = some b → b.status = BatchStatus.TRIGGERED

/-- The identifiers `uuidv4()` gives to a request are fresh: the ingestion
identifier is not a key of the store, and the batch identifiers of the loop
iterations differ from one another. -/
def freshIngest (st : State) (body : Body) (env : IngestEnv) : Prop :=
  mapGet st.requests env.ingestionId = none ∧
  ∀ ids, body.ids = JsVal.arr ids →
    ∀ i, i < ids.length → ∀ j, j < ids.length → env.batchUuid i = env.batchUuid j → i = j

/-- An event whose generated identifiers, if any, are fresh. -/
def FreshEvent (s : Sys) : Event → Prop
  | .ingest body env => freshIngest s.state body env
  | _ => True

/-- A sequence of events in which every request gets fresh identifiers. -/
def FreshRun : Sys → List Event → Prop
  | _, [] => True
  | s, ev :: evs => FreshEvent s ev ∧ FreshRun (step s ev).1 evs

/-- Every queued entry names a stored request, and exactly one batch of that
request carries the entry's batch identifier. -/
def LinkInv (st : State) : Prop :=
  ∀ e ∈ st.processingQueue, ∃ request, mapGet st.requests e.ingestionId = some request ∧
    (request.batches.map Batch.batchId).count e.batchId = 1

/-- A baseline that is set is a positive time, no queued batch is empty, and
the timeout of the `for` loop ends at 1000 ms or later. -/
def TimerInv (s : Sys) : Prop :=
  0 ≤ s.clock ∧ (∀ e ∈ s.state.processingQueue, e.ids ≠ []) ∧
  (∀ last, s.state.lastProcessedTime = some last → 0 < last ∧ last ≤ s.clock) ∧
  ∀ batch remaining wake, s.dispatcher = Dispatcher.working batch remaining wake → 1000 ≤ wake

/-- The order of two adjacent entries of a sorted queue. -/
def inOrder (a b : QueueEntry) : Prop :=
  a.priorityValue < b.priorityValue ∨
    (a.priorityValue = b.priorityValue ∧ a.createdAt ≤ b.createdAt)

/-- A request whose second identifier is out of range. -/
def secondIdInvalid : Body :=
  { ids := JsVal.arr [.int 1, .int 0], priority := JsVal.str "HIGH" }

/-- A request with an empty list of identifiers. -/
def emptyIds : Body :=
  { ids := JsVal.arr [], priority := JsVal.str "HIGH" }

/-- A LOW request of four identifiers; the dispatcher takes its first batch
at 1000 ms and completes it at 4000 ms; the clock then reaches 6000 ms. -/
def afterFirstBatch : List Event :=
  [Event.ingest lowBody (envOf "low"), Event.tick 1000, Event.timer, Event.tick 1000,
   Event.timer, Event.tick 1000, Event.timer, Event.tick 1000, Event.timer, Event.tick 2000]

/-! ## The split loop -/

theorem splitLoop_length (ids : List JsVal) (env : IngestEnv) :
    ∀ (fuel i : Nat) (clock : Int), ids.length ≤ i + 3 * fuel →
      (splitLoop ids env fuel i clock).length = (ids.length - i + 2) / 3 := by
  intro fuel
  induction fuel with
  | zero =>
    intro i clock h
    simp only [splitLoop, List.length_nil]
    omega
  | succ fuel ih =>
    intro i clock h
    unfold splitLoop
    by_cases hi : i < ids.length
    · rw [if_pos hi]
      simp only [List.length_cons]
      rw [ih (i + 3) _ (by omega)]
      omega
    · rw [if_neg hi]
      simp only [List.length_nil]
      omega

theorem splitLoop_getElem? (ids : List JsVal) (env : IngestEnv) :
    ∀ (fuel i : Nat) (clock : Int) (k : Nat) (b : Batch),
      (splitLoop ids env fuel i clock)[k]? = some b →
        b.ids = (ids.drop (i + 3 * k)).take 3 ∧ b.status = BatchStatus.YET_TO_START
          ∧ b.batchId = env.batchUuid (i + 3 * k) := by
  intro fuel
  induction fuel with
  | zero =>
    intro i clock k b h
    simp [splitLoop] at h
  | succ fuel ih =>
    intro i clock k b h
    unfold splitLoop at h
    by_cases hi : i < ids.length
    · rw [if_pos hi] at h
      cases k with
      | zero =>
        simp only [List.getElem?_cons_zero, Option.some.injEq] at h
        subst h
        simp
      | succ k =>
        simp only [List.getElem?_cons_succ] at h
        have := ih (i + 3) _ k b h
        have e : i + 3 + 3 * k = i + 3 * (k + 1) := by omega
        rw [e] at this
        exact this
    · rw [if_neg hi] at h
      simp at h

theorem splitLoop_flatten (ids : List JsVal) (env : IngestEnv) :
    ∀ (fuel i : Nat) (clock : Int), ids.length ≤ i + 3 * fuel →
      ((splitLoop ids env fuel i clock).map Batch.ids).flatten = ids.drop i := by
  intro fuel
  induction fuel with
  | zero =>
    intro i clock h
    simp only [splitLoop, List.map_nil, List.flatten_nil]
    exact (List.drop_eq_nil_of_le (by omega)).symm
  | succ fuel ih =>
    intro i clock h
    unfold splitLoop
    by_cases hi : i < ids.length
    · rw [if_pos hi]
      simp only [List.map_cons, List.flatten_cons]
      rw [ih (i + 3) _ (by omega)]
      have : List.drop (i + 3) ids = List.drop 3 (List.drop i ids) := by
        rw [List.drop_drop]
      rw [this, List.take_append_drop]
    · rw [if_neg hi]
      simp only [List.map_nil, List.flatten_nil]
      exact (List.drop_eq_nil_of_le (by omega)).symm

theorem makeBatches_length (ids : List JsVal) (env : IngestEnv) (clock : Int) :
    (makeBatches ids env clock).length = (ids.length + 2) / 3 := by
  unfold makeBatches
  rw [splitLoop_length ids env _ 0 clock (by omega)]
  simp

theorem makeBatches_flatten (ids : List JsVal) (env : IngestEnv) (clock : Int) :
    ((makeBatches ids env clock).map Batch.ids).flatten = ids := by
  unfold makeBatches
  rw [splitLoop_flatten ids env _ 0 clock (by omega)]
  simp

theorem makeBatches_getElem? (ids : List JsVal) (env : IngestEnv) (clock : Int) (k : Nat)
    (b : Batch) (h : (makeBatches ids env clock)[k]? = some b) :
    b.ids = (ids.drop (3 * k)).take 3 ∧ b.status = BatchStatus.YET_TO_START := by
  have := splitLoop_getElem? ids env _ 0 clock k b h
  simp only [Nat.zero_add] at this
  exact ⟨this.1, this.2.1⟩

/-! ## The intake: what an accepted request stores -/

theorem mapGet_mapSet_self (m : List (String × Request)) (key : String) (value : Request) :
    mapGet (mapSet m key value) key = some value := by
  induction m with
  | nil => simp [mapSet, mapGet, List.lookup]
  | cons p rest ih =>
    obtain ⟨k, v⟩ := p
    unfold mapSet
    by_cases hk : k = key
    · rw [if_pos hk]
      subst hk
      simp [mapGet, List.lookup]
    · rw [if_neg hk]
      have hne : (key == k) = false := by
        simp only [beq_eq_false_iff_ne, ne_eq]
        exact fun h => hk h.symm
      unfold mapGet at ih ⊢
      rw [List.lookup, hne]
      exact ih

/-- An accepted request: its array of identifiers and its priority value. -/
theorem postIngest_ok (s : State) (clock : Int) (body : Body) (env : IngestEnv)
    (h : (postIngest s clock body env).response.code = 200) :
    ∃ ids priorityValue,
      body.ids = JsVal.arr ids ∧ priorityLevel body.priority = some priorityValue ∧
      ids.any invalidId = false ∧
      (postIngest s clock body env).pushed =
        (makeBatches ids env clock).map (toEntry env.ingestionId body.priority priorityValue) ∧
      (postIngest s clock body env).state =
        { requests := mapSet s.requests env.ingestionId
            { ingestionId := env.ingestionId
              ids := ids
              priority := body.priority
              batches := makeBatches ids env clock
              createdAt := lastReading clock (makeBatches ids env clock) + env.finalDelay }
          processingQueue := sortQueue (s.processingQueue ++
            (makeBatches ids env clock).map (toEntry env.ingestionId body.priority priorityValue))
          lastProcessedTime := s.lastProcessedTime } ∧
      (postIngest s clock body env).clock =
        lastReading clock (makeBatches ids env clock) + env.finalDelay ∧
      (postIngest s clock body env).response = IngestResponse.ok env.ingestionId := by
  cases hids : body.ids with
  | arr ids =>
    by_cases ht : body.priority.truthy = true
    · cases hp : priorityLevel body.priority with
      | none => simp [postIngest, hids, JsVal.asArray, ht, hp, IngestResponse.code] at h
      | some pv =>
        by_cases hv : ids.any invalidId = true
        · simp [postIngest, hids, JsVal.asArray, ht, hp, hv, IngestResponse.code] at h
        · have hv2 : ids.any invalidId = false := by simpa using hv
          refine ⟨ids, pv, rfl, rfl, hv2, ?_, ?_, ?_, ?_⟩ <;>
            simp only [postIngest, hids, JsVal.asArray, ht, hp, hv2, Bool.not_true,
              Bool.false_eq_true, if_false]
    · simp [postIngest, hids, JsVal.asArray, ht, IngestResponse.code] at h
  | _ => simp [postIngest, hids, JsVal.asArray, IngestResponse.code] at h

/-- C1: an accepted list of N identifiers is stored as ceil(N/3) batches; every
batch but the last holds 3 identifiers, the last holds N mod 3 (3 when that is
0); no batch is empty and none holds more than 3. -/
theorem ingest_batch_sizes (s : State) (clock : Int) (body : Body) (env : IngestEnv)
    (ids : List JsVal) (hids : body.ids = JsVal.arr ids)
    (h : (postIngest s clock body env).response.code = 200) :
    ∃ request, mapGet (postIngest s clock body env).state.requests env.ingestionId = some request ∧
      request.batches.length = (ids.length + 2) / 3 ∧
      ∀ (k : Nat) (b : Batch), request.batches[k]? = some b →
        (k + 1 < request.batches.length → b.ids.length = 3) ∧
        (k + 1 = request.batches.length →
          b.ids.length = if ids.length % 3 = 0 then 3 else ids.length % 3) ∧
        1 ≤ b.ids.length ∧ b.ids.length ≤ 3 := by
  obtain ⟨ids', pv, hb, _, _, _, hst, _, _⟩ := postIngest_ok s clock body env h
  rw [hids] at hb
  cases hb
  rw [hst]
  refine ⟨_, mapGet_mapSet_self _ _ _, makeBatches_length ids env clock, ?_⟩
  intro k b hk
  dsimp only at hk
  have hlen := makeBatches_length ids env clock
  have hklt : k < (makeBatches ids env clock).length := by
    by_contra hc
    rw [List.getElem?_eq_none (by omega)] at hk
    cases hk
  obtain ⟨hbi, _⟩ := makeBatches_getElem? ids env clock k b hk
  dsimp only
  rw [hbi, List.length_take, List.length_drop, hlen]
  rw [hlen] at hklt
  split_ifs <;> omega

theorem ingest_batch_sizes_witness :
    ∃ request,
      mapGet (postIngest State.init 0 sevenIds (envOf "a")).state.requests "a" = some request ∧
      request.batches.length = (7 + 2) / 3 ∧
      ∀ (k : Nat) (b : Batch), request.batches[k]? = some b →
        (k + 1 < request.batches.length → b.ids.length = 3) ∧
        (k + 1 = request.batches.length →
          b.ids.length = if 7 % 3 = 0 then 3 else 7 % 3) ∧
        1 ≤ b.ids.length ∧ b.ids.length ≤ 3 :=
  ingest_batch_sizes State.init 0 sevenIds (envOf "a") _ rfl (by decide)

/-- C2: the identifiers of the stored batches, concatenated in batch order,
are the accepted list itself. -/
theorem ingest_batches_concat (s : State) (clock : Int) (body : Body) (env : IngestEnv)
    (ids : List JsVal) (hids : body.ids = JsVal.arr ids)
    (h : (postIngest s clock body env).response.code = 200) :
    ∃ request, mapGet (postIngest s clock body env).state.requests env.ingestionId = some request ∧
      request.ids = ids ∧
      (request.batches.map Batch.ids).flatten = ids := by
  obtain ⟨ids', pv, hb, _, _, _, hst, _, _⟩ := postIngest_ok s clock body env h
  rw [hids] at hb
  cases hb
  rw [hst]
  exact ⟨_, mapGet_mapSet_self _ _ _, rfl, makeBatches_flatten ids env clock⟩

theorem ingest_batches_concat_witness :
    ∃ request,
      mapGet (postIngest State.init 0 sevenIds (envOf "a")).state.requests "a" = some request ∧
      request.ids = [.int 1, .int 2, .int 3, .int 4, .int 5, .int 6, .int 7] ∧
      (request.batches.map Batch.ids).flatten =
        [.int 1, .int 2, .int 3, .int 4, .int 5, .int 6, .int 7] :=
  ingest_batches_concat State.init 0 sevenIds (envOf "a") _ rfl (by decide)

/-! ## The status reducer -/

theorem overallStatus_triggered (batches : List Batch)
    (h : ∃ b ∈ batches, b.status = BatchStatus.TRIGGERED) :
    overallStatus batches = OverallStatus.TRIGGERED := by
  unfold overallStatus
  rw [if_pos]
  simpa using h

theorem overallStatus_completed (batches : List Batch)
    (h1 : ¬ ∃ b ∈ batches, b.status = BatchStatus.TRIGGERED)
    (h2 : ∀ b ∈ batches, b.status = BatchStatus.COMPLETED) :
    overallStatus batches = OverallStatus.COMPLETED := by
  unfold overallStatus
  rw [if_neg (by simpa using h1), if_pos (by simpa using h2)]

theorem overallStatus_yetToStart (batches : List Batch)
    (h1 : ¬ ∃ b ∈ batches, b.status = BatchStatus.TRIGGERED)
    (h2 : ¬ ∀ b ∈ batches, b.status = BatchStatus.COMPLETED) :
    overallStatus batches = OverallStatus.YET_TO_START := by
  unfold overallStatus
  rw [if_neg (by simpa using h1), if_neg (by simpa using h2)]

/-- C3: for a stored submission `GET /status` answers 200 with the overall
status `triggered` when some batch is triggered, else `completed` when every
batch is completed, else `yet_to_start`; batches {completed, triggered} give
`triggered` and batches {completed, yet_to_start} give `yet_to_start`. -/
theorem getStatus_overall (s : State) (ingestionId : String) (request : Request)
    (h : mapGet s.requests ingestionId = some request) :
    (∃ status, getStatus s ingestionId = StatusResponse.ok ingestionId status request.batches ∧
      ((∃ b ∈ request.batches, b.status = BatchStatus.TRIGGERED) →
        status = OverallStatus.TRIGGERED) ∧
      ((¬ ∃ b ∈ request.batches, b.status = BatchStatus.TRIGGERED) →
        (∀ b ∈ request.batches, b.status = BatchStatus.COMPLETED) →
        status = OverallStatus.COMPLETED) ∧
      ((¬ ∃ b ∈ request.batches, b.status = BatchStatus.TRIGGERED) →
        (¬ ∀ b ∈ request.batches, b.status = BatchStatus.COMPLETED) →
        status = OverallStatus.YET_TO_START)) ∧
    (∀ done running pending : Batch,
      done.status = BatchStatus.COMPLETED → running.status = BatchStatus.TRIGGERED →
      pending.status = BatchStatus.YET_TO_START →
        overallStatus [done, running] = OverallStatus.TRIGGERED ∧
        overallStatus [running, done] = OverallStatus.TRIGGERED ∧
        overallStatus [done, pending] = OverallStatus.YET_TO_START ∧
        overallStatus [pending, done] = OverallStatus.YET_TO_START) := by
  refine ⟨⟨overallStatus request.batches, ?_, overallStatus_triggered _,
    overallStatus_completed _, overallStatus_yetToStart _⟩, ?_⟩
  · unfold getStatus
    rw [h]
  · intro done running pending hd hr hp
    simp [overallStatus, hd, hr, hp]

theorem getStatus_overall_witness :
    ∃ request, mapGet mixedStore.requests "a" = some request ∧
      getStatus mixedStore "a" = StatusResponse.ok "a" OverallStatus.TRIGGERED request.batches :=
  ⟨_, rfl, by
    obtain ⟨status, h1, h2, _⟩ := (getStatus_overall mixedStore "a" _ rfl).1
    have : status = OverallStatus.TRIGGERED :=
      h2 ⟨_, List.mem_cons_of_mem _ (List.mem_cons_self _ _), rfl⟩
    rw [this] at h1
    exact h1⟩

/-! ## The validation of `POST /ingest` -/

/-- C4, evaluated: a body whose `priority` is the array `["HIGH"]`, which is
none of the classes HIGH, MEDIUM, LOW, is answered 200: `hasOwnProperty`
coerces its argument to the property key "HIGH". -/
theorem postIngest_array_priority_accepted :
    (postIngest State.init 0 arrayPriority (envOf "a")).response.code = 200 ∧
    arrayPriority.priority ≠ JsVal.str "HIGH" ∧ arrayPriority.priority ≠ JsVal.str "MEDIUM" ∧
    arrayPriority.priority ≠ JsVal.str "LOW" ∧
    (∃ ids, arrayPriority.ids = JsVal.arr ids ∧ ∀ v ∈ ids, ∃ z : Int, v = JsVal.int z ∧
      1 ≤ z ∧ z ≤ 1000000007) := by
  refine ⟨by decide, ?_, ?_, ?_, ?_⟩
  · intro h; cases h
  · intro h; cases h
  · intro h; cases h
  · refine ⟨[.int 1], rfl, ?_⟩
    intro v hv
    simp only [List.mem_singleton] at hv
    exact ⟨1, hv, by decide, by decide⟩

theorem priorityLevel_str (p : String) :
    (priorityLevel (JsVal.str p)).isSome = true ↔ p = "HIGH" ∨ p = "MEDIUM" ∨ p = "LOW" := by
  unfold priorityLevel PRIORITY_LEVELS
  simp only [JsVal.toStr, List.lookup]
  by_cases h1 : p = "HIGH"
  · subst h1; simp
  · by_cases h2 : p = "MEDIUM"
    · subst h2; simp
    · by_cases h3 : p = "LOW"
      · subst h3; simp
      · have e1 : (p == "HIGH") = false := by simpa using h1
        have e2 : (p == "MEDIUM") = false := by simpa using h2
        have e3 : (p == "LOW") = false := by simpa using h3
        simp [e1, e2, e3, h1, h2, h3]

theorem invalidId_eq_false (v : JsVal) :
    invalidId v = false ↔ ∃ z : Int, v = JsVal.int z ∧ 1 ≤ z ∧ z ≤ 1000000007 := by
  cases v <;> simp [invalidId]

/-- The validation on bodies whose `priority` is a string: the reply is 400
exactly when `ids` is not an array, or the string is none of HIGH, MEDIUM, LOW,
or some identifier is not an integer of [1, 10^9+7]; otherwise it is 200 with
the generated identifier. -/
theorem postIngest_code_of_string_priority (s : State) (clock : Int) (ids : JsVal)
    (p : String) (env : IngestEnv) :
    ((postIngest s clock ⟨ids, JsVal.str p⟩ env).response.code = 400 ↔
      (ids.asArray = none ∨ ¬ (p = "HIGH" ∨ p = "MEDIUM" ∨ p = "LOW") ∨
        ∃ xs, ids = JsVal.arr xs ∧ ∃ v ∈ xs,
          ¬ ∃ z : Int, v = JsVal.int z ∧ 1 ≤ z ∧ z ≤ 1000000007)) ∧
    ((postIngest s clock ⟨ids, JsVal.str p⟩ env).response.code ≠ 400 →
      (postIngest s clock ⟨ids, JsVal.str p⟩ env).response = IngestResponse.ok env.ingestionId) := by
  have hp := priorityLevel_str p
  cases hids : ids with
  | arr xs =>
    by_cases hpe : p = ""
    · subst hpe
      simp [postIngest, JsVal.asArray, JsVal.truthy, IngestResponse.code]
    · have ht : (JsVal.str p).truthy = true := by simpa [JsVal.truthy] using hpe
      cases hl : priorityLevel (JsVal.str p) with
      | none =>
        have : ¬ (p = "HIGH" ∨ p = "MEDIUM" ∨ p = "LOW") := by
          rw [← hp, hl]; simp
        simp [postIngest, JsVal.asArray, ht, hl, IngestResponse.code, this]
      | some pv =>
        have hin : p = "HIGH" ∨ p = "MEDIUM" ∨ p = "LOW" := by
          rw [← hp, hl]; simp
        by_cases hv : xs.any invalidId = true
        · have hex : ∃ v ∈ xs, ¬ ∃ z : Int, v = JsVal.int z ∧ 1 ≤ z ∧ z ≤ 1000000007 := by
            rw [List.any_eq_true] at hv
            obtain ⟨v, hv1, hv2⟩ := hv
            refine ⟨v, hv1, ?_⟩
            rw [← invalidId_eq_false, hv2]
            simp
          simp only [postIngest, JsVal.asArray, ht, hl, hv, IngestResponse.code, Bool.not_true,
            Bool.false_eq_true, if_false, if_true, ne_eq, not_true_eq_false, false_implies,
            and_true, true_iff]
          exact Or.inr (Or.inr ⟨xs, rfl, hex⟩)
        · have hv2 : xs.any invalidId = false := by simpa using hv
          have hno : ¬ ∃ v ∈ xs, ¬ ∃ z : Int, v = JsVal.int z ∧ 1 ≤ z ∧ z ≤ 1000000007 := by
            rintro ⟨v, hv1, hv3⟩
            apply hv3
            rw [← invalidId_eq_false]
            have := List.any_eq_false.mp hv2 v hv1
            simpa using this
          have hresp : (postIngest s clock ⟨JsVal.arr xs, JsVal.str p⟩ env).response
              = IngestResponse.ok env.ingestionId := by
            simp only [postIngest, JsVal.asArray, ht, hl, hv2, Bool.not_true,
              Bool.false_eq_true, if_false]
          rw [hresp]
          refine ⟨⟨fun h => ?_, ?_⟩, fun _ => rfl⟩
          · simp [IngestResponse.code] at h
          · rintro (h | h | ⟨ys, hy, h⟩)
            · simp [JsVal.asArray] at h
            · exact absurd hin h
            · cases hy
              exact absurd h hno
  | _ => simp [postIngest, JsVal.asArray, IngestResponse.code]

/-- The bounds are inclusive: 1 and 10^9+7 are accepted, 0 and 10^9+8 are not. -/
theorem postIngest_bounds :
    (postIngest State.init 0 ⟨JsVal.arr [.int 1, .int 1000000007], JsVal.str "LOW"⟩
      (envOf "a")).response.code = 200 ∧
    (postIngest State.init 0 ⟨JsVal.arr [.int 0], JsVal.str "LOW"⟩ (envOf "a")).response.code
      = 400 ∧
    (postIngest State.init 0 ⟨JsVal.arr [.int 1000000008], JsVal.str "LOW"⟩
      (envOf "a")).response.code = 400 := by
  decide

/-! ## The order of the queue -/

theorem entryLe_iff (a b : QueueEntry) :
    entryLe a b ↔ a.priorityValue < b.priorityValue ∨
      (a.priorityValue = b.priorityValue ∧ a.createdAt ≤ b.createdAt) := by
  unfold entryLe compareEntries
  by_cases h : a.priorityValue = b.priorityValue
  · rw [if_neg (by simpa using h)]
    omega
  · rw [if_pos h]
    omega

instance : IsTotal QueueEntry entryLe :=
  ⟨fun a b => by rw [entryLe_iff, entryLe_iff]; omega⟩

instance : IsTrans QueueEntry entryLe :=
  ⟨fun a b c => by rw [entryLe_iff, entryLe_iff, entryLe_iff]; omega⟩

theorem sortQueue_sorted (q : List QueueEntry) : (sortQueue q).Sorted entryLe :=
  List.sorted_insertionSort entryLe q

theorem sortQueue_perm (q : List QueueEntry) : (sortQueue q).Perm q :=
  List.perm_insertionSort entryLe q

theorem mem_sortQueue {q : List QueueEntry} {x : QueueEntry} : x ∈ sortQueue q ↔ x ∈ q :=
  (sortQueue_perm q).mem_iff

/-- The head of a sorted queue has the least priority value and, within that
value, the least creation time. -/
theorem sorted_head_least (e : QueueEntry) (rest : List QueueEntry)
    (h : (e :: rest).Sorted entryLe) :
    ∀ x ∈ e :: rest, e.priorityValue ≤ x.priorityValue ∧
      (x.priorityValue = e.priorityValue → e.createdAt ≤ x.createdAt) := by
  intro x hx
  rcases List.mem_cons.mp hx with rfl | hx
  · exact ⟨le_refl _, fun _ => le_refl _⟩
  · have := (entryLe_iff e x).mp (List.rel_of_sorted_cons h x hx)
    constructor
    · omega
    · intro hxe; omega

/-- Stability, class by class: sorting a concatenation whose entries of one
priority value are already in non-decreasing creation order leaves the entries
of that value in the order they had. -/
theorem sortQueue_filter (q entries : List QueueEntry) (p : Int)
    (hq : q.Sorted entryLe)
    (he : entries.Pairwise (fun a b => a.createdAt ≤ b.createdAt))
    (hcross : ∀ x ∈ q, ∀ y ∈ entries, x.createdAt ≤ y.createdAt) :
    (sortQueue (q ++ entries)).filter (fun e => e.priorityValue = p) =
      q.filter (fun e => e.priorityValue = p) ++ entries.filter (fun e => e.priorityValue = p) := by
  set f : QueueEntry → Bool := fun e => decide (e.priorityValue = p) with hf
  have hsub : List.Sublist ((q ++ entries).filter f) (q ++ entries) := List.filter_sublist _
  have hmem : ∀ x ∈ (q ++ entries).filter f, x.priorityValue = p := by
    intro x hx
    have := (List.mem_filter.mp hx).2
    simpa [hf] using this
  have hpair : ((q ++ entries).filter f).Pairwise entryLe := by
    rw [List.filter_append, List.pairwise_append]
    refine ⟨?_, ?_, ?_⟩
    · exact List.Pairwise.sublist (List.filter_sublist _) hq
    · have h1 : (entries.filter f).Pairwise (fun a b => a.createdAt ≤ b.createdAt) :=
        List.Pairwise.sublist (List.filter_sublist _) he
      have h2 : ∀ x ∈ entries.filter f, x.priorityValue = p := fun x hx =>
        hmem x (by rw [List.filter_append]; exact List.mem_append_right _ hx)
      refine List.Pairwise.imp_of_mem ?_ h1
      intro a b ha hb hab
      rw [entryLe_iff]
      right
      exact ⟨by rw [h2 a ha, h2 b hb], hab⟩
    · intro x hx y hy
      have hx1 := List.mem_filter.mp hx
      have hy1 := List.mem_filter.mp hy
      rw [entryLe_iff]
      right
      refine ⟨?_, hcross x hx1.1 y hy1.1⟩
      have e1 : x.priorityValue = p := by simpa [hf] using hx1.2
      have e2 : y.priorityValue = p := by simpa [hf] using hy1.2
      rw [e1, e2]
  have h1 : List.Sublist ((q ++ entries).filter f) (sortQueue (q ++ entries)) :=
    List.sublist_insertionSort hpair hsub
  have h2 : List.Sublist (((q ++ entries).filter f).filter f)
      ((sortQueue (q ++ entries)).filter f) :=
    List.Sublist.filter f h1
  rw [List.filter_filter] at h2
  simp only [Bool.and_self] at h2
  have h3 : ((q ++ entries).filter f).length = ((sortQueue (q ++ entries)).filter f).length :=
    ((sortQueue_perm (q ++ entries)).filter f).length_eq.symm
  have h4 := List.Sublist.eq_of_length h2 h3
  rw [← h4, List.filter_append]

/-! ## Observations -/

theorem shiftedLog_append (a b : List Obs) :
    shiftedLog (a ++ b) = shiftedLog a ++ shiftedLog b := by
  induction a with
  | nil => rfl
  | cons o a ih => cases o <;> simp [shiftedLog, ih]

theorem pushedLog_append (a b : List Obs) :
    pushedLog (a ++ b) = pushedLog a ++ pushedLog b := by
  induction a with
  | nil => rfl
  | cons o a ih => cases o <;> simp [pushedLog, ih]

theorem triggerTimes_append (a b : List Obs) :
    triggerTimes (a ++ b) = triggerTimes a ++ triggerTimes b := by
  induction a with
  | nil => rfl
  | cons o a ih => cases o <;> simp [triggerTimes, ih]

theorem pushedLog_map_pushed (l : List QueueEntry) : pushedLog (l.map Obs.pushed) = l := by
  induction l with
  | nil => rfl
  | cons e l ih => simp [pushedLog, ih]

theorem shiftedLog_map_pushed (l : List QueueEntry) : shiftedLog (l.map Obs.pushed) = [] := by
  induction l with
  | nil => rfl
  | cons e l ih => simp [shiftedLog, ih]

theorem triggerTimes_map_pushed (l : List QueueEntry) :
    triggerTimes (l.map Obs.pushed) = [] := by
  induction l with
  | nil => rfl
  | cons e l ih => simp [triggerTimes, ih]

/-- A property of the state and of the observations made so far that every
event preserves holds along every run. -/
theorem run_invariant (I : Sys → List Obs → Prop)
    (hstep : ∀ s L ev, I s L → I (step s ev).1 (L ++ (step s ev).2)) :
    ∀ evs s L, I s L → I (run s evs).1 (L ++ (run s evs).2) := by
  intro evs
  induction evs with
  | nil =>
    intro s L h
    simpa [run] using h
  | cons ev evs ih =>
    intro s L h
    have h1 := hstep s L ev h
    have h2 := ih (step s ev).1 _ h1
    simpa [run, List.append_assoc] using h2

/-! ## What the intake pushes -/

theorem splitLoop_createdAt (ids : List JsVal) (env : IngestEnv) :
    ∀ (fuel i : Nat) (clock : Int),
      (∀ b ∈ splitLoop ids env fuel i clock, clock ≤ b.createdAt ∧ b.ids ≠ []) ∧
      (splitLoop ids env fuel i clock).Pairwise (fun a b => a.createdAt ≤ b.createdAt) := by
  intro fuel
  induction fuel with
  | zero =>
    intro i clock
    simp [splitLoop]
  | succ fuel ih =>
    intro i clock
    unfold splitLoop
    by_cases hi : i < ids.length
    · rw [if_pos hi]
      obtain ⟨h1, h2⟩ := ih (i + 3) (clock + env.delay i)
      have hd : (0 : Int) ≤ env.delay i := Int.ofNat_nonneg _
      constructor
      · intro b hb
        rcases List.mem_cons.mp hb with rfl | hb
        · refine ⟨by dsimp only; omega, ?_⟩
          dsimp only
          intro hnil
          have := congrArg List.length hnil
          rw [List.length_take, List.length_drop] at this
          simp only [List.length_nil] at this
          omega
        · have := h1 b hb
          exact ⟨by omega, this.2⟩
      · rw [List.pairwise_cons]
        refine ⟨?_, h2⟩
        intro b hb
        exact (h1 b hb).1
    · rw [if_neg hi]
      simp

theorem pairwise_getLast {α : Type} (R : α → α → Prop) :
    ∀ (l : List α) (z : α), l.Pairwise R → l.getLast? = some z → ∀ b ∈ l, b = z ∨ R b z := by
  intro l
  induction l with
  | nil => intro z _ h; simp at h
  | cons a l ih =>
    intro z hp hl b hb
    rw [List.pairwise_cons] at hp
    cases l with
    | nil =>
      simp only [List.getLast?_singleton, Option.some.injEq] at hl
      simp only [List.mem_singleton] at hb
      left; rw [hb, hl]
    | cons c l =>
      rw [List.getLast?_cons_cons] at hl
      rcases List.mem_cons.mp hb with rfl | hb
      · right
        have hz : z ∈ c :: l := List.mem_of_getLast?_eq_some hl
        exact hp.1 z hz
      · exact ih z hp.2 hl b hb

theorem lastReading_ge (clock : Int) (batches : List Batch)
    (h1 : ∀ b ∈ batches, clock ≤ b.createdAt)
    (h2 : batches.Pairwise (fun a b => a.createdAt ≤ b.createdAt)) :
    clock ≤ lastReading clock batches ∧
      ∀ b ∈ batches, b.createdAt ≤ lastReading clock batches := by
  unfold lastReading
  cases hl : batches.getLast? with
  | none =>
    have : batches = [] := by simpa using hl
    subst this
    simp
  | some z =>
    dsimp only
    have hz : z ∈ batches := List.mem_of_getLast?_eq_some hl
    refine ⟨h1 z hz, ?_⟩
    intro b hb
    rcases pairwise_getLast _ batches z h2 hl b hb with rfl | h
    · exact le_refl _
    · exact h

/-- The two outcomes of the intake: a rejection, which changes nothing, or an
acceptance, which sorts the pushed entries into the queue. The pushed entries
share one priority value among 0, 1, 2, are stamped in non-decreasing order
between the clock at entry and the clock at exit, and none is empty. -/
theorem postIngest_cases (s : State) (clock : Int) (body : Body) (env : IngestEnv) :
    ((postIngest s clock body env).state = s ∧ (postIngest s clock body env).clock = clock ∧
      (postIngest s clock body env).pushed = [] ∧
      (postIngest s clock body env).response.code = 400) ∨
    ((postIngest s clock body env).response.code = 200 ∧
      (postIngest s clock body env).state.processingQueue =
        sortQueue (s.processingQueue ++ (postIngest s clock body env).pushed) ∧
      (postIngest s clock body env).state.lastProcessedTime = s.lastProcessedTime ∧
      clock ≤ (postIngest s clock body env).clock ∧
      (postIngest s clock body env).pushed.Pairwise (fun a b => a.createdAt ≤ b.createdAt) ∧
      (∃ pv, priorityLevel body.priority = some pv ∧
        ∀ e ∈ (postIngest s clock body env).pushed, e.priorityValue = pv) ∧
      ∀ e ∈ (postIngest s clock body env).pushed,
        clock ≤ e.createdAt ∧ e.createdAt ≤ (postIngest s clock body env).clock ∧ e.ids ≠ [] ∧
        e.status = BatchStatus.YET_TO_START ∧ e.ingestionId = env.ingestionId) := by
  by_cases h : (postIngest s clock body env).response.code = 200
  · right
    obtain ⟨ids, pv, hb, hpv, _, hpushed, hst, hclock, _⟩ := postIngest_ok s clock body env h
    have hc := splitLoop_createdAt ids env (ids.length + 1) 0 clock
    have hl := lastReading_ge clock (makeBatches ids env clock) (fun b hb => (hc.1 b hb).1) hc.2
    have hfd : (0 : Int) ≤ env.finalDelay := Int.ofNat_nonneg _
    refine ⟨h, ?_, ?_, ?_, ?_, ⟨pv, hpv, ?_⟩, ?_⟩
    · rw [hst, hpushed]
    · rw [hst]
    · rw [hclock]; omega
    · rw [hpushed, List.pairwise_map]
      exact hc.2
    · rw [hpushed]
      intro e he
      obtain ⟨b, _, rfl⟩ := List.mem_map.mp he
      rfl
    · rw [hpushed, hclock]
      intro e he
      obtain ⟨b, hb, rfl⟩ := List.mem_map.mp he
      have h1 := hc.1 b hb
      have h2 := hl.2 b hb
      have h3 := (splitLoop_getElem? ids env (ids.length + 1) 0 clock)
      obtain ⟨k, hk⟩ := List.getElem?_of_mem hb
      have h4 := (h3 k b hk).2.1
      refine ⟨h1.1, ?_, h1.2, h4, rfl⟩
      show b.createdAt ≤ _
      omega
  · left
    unfold postIngest at h ⊢
    cases hids : body.ids with
    | arr ids =>
      simp only [hids, JsVal.asArray] at h ⊢
      by_cases ht : body.priority.truthy = true
      · simp only [ht, Bool.not_true, Bool.false_eq_true, if_false] at h ⊢
        cases hp : priorityLevel body.priority with
        | none => simp [IngestResponse.code]
        | some pv =>
          simp only [hp] at h ⊢
          by_cases hv : ids.any invalidId = true
          · simp [hv, IngestResponse.code]
          · simp [hv, IngestResponse.code] at h
      · simp [ht, IngestResponse.code]
    | _ => simp [JsVal.asArray, IngestResponse.code]

theorem priorityLevel_range (v : JsVal) (pv : Int) (h : priorityLevel v = some pv) :
    pv = 0 ∨ pv = 1 ∨ pv = 2 := by
  unfold priorityLevel PRIORITY_LEVELS at h
  simp only [List.lookup] at h
  split at h
  · simp at h; omega
  · split at h
    · simp at h; omega
    · split at h
      · simp at h; omega
      · simp at h

/-! ## What the dispatcher does to the queue -/

theorem finishBatch_effect (s : Sys) (batch : QueueEntry) :
    (finishBatch s batch).1.clock = s.clock ∧
    (finishBatch s batch).1.state.requests = s.state.requests ∧
    (finishBatch s batch).1.state.processingQueue = s.state.processingQueue ∧
    pushedLog (finishBatch s batch).2 = [] ∧ shiftedLog (finishBatch s batch).2 = [] := by
  simp [finishBatch, pushedLog, shiftedLog]

theorem startBatch_effect (s : Sys) : QueueEffect s (startBatch s) := by
  unfold QueueEffect startBatch
  cases hq : s.state.processingQueue with
  | nil => simp [pushedLog, shiftedLog, hq]
  | cons batch rest =>
    dsimp only
    cases hr : mapGet s.state.requests batch.ingestionId with
    | none => simp [pushedLog, shiftedLog]
    | some req =>
      dsimp only
      cases hi : batch.ids with
      | nil => simp [pushedLog, shiftedLog, finishBatch]
      | cons id ids => simp [pushedLog, shiftedLog]

theorem loopHead_effect (s : Sys) : QueueEffect s (loopHead s) := by
  unfold loopHead
  by_cases hq : s.state.processingQueue.length > 0
  · rw [if_pos hq]
    dsimp only
    cases hl : s.state.lastProcessedTime with
    | none => exact startBatch_effect s
    | some last =>
      dsimp only
      split_ifs
      · simp [QueueEffect, pushedLog, shiftedLog]
      · exact startBatch_effect s
  · rw [if_neg hq]
    simp [QueueEffect, pushedLog, shiftedLog]

theorem resume_effect (s : Sys) : QueueEffect s (resume s) := by
  unfold resume
  cases hd : s.dispatcher with
  | loopTop => exact loopHead_effect s
  | idle wake =>
    dsimp only
    split_ifs
    · exact loopHead_effect s
    · simp [QueueEffect, pushedLog, shiftedLog]
  | throttled wake =>
    dsimp only
    split_ifs
    · exact startBatch_effect s
    · simp [QueueEffect, pushedLog, shiftedLog]
  | working batch remaining wake =>
    dsimp only
    split_ifs
    · split
      · simp [QueueEffect, pushedLog, shiftedLog]
      · obtain ⟨h1, h2, h3, h4, h5⟩ := finishBatch_effect s batch
        obtain ⟨g1, g2, g3, g4⟩ := loopHead_effect (finishBatch s batch).1
        refine ⟨by rw [g1, h1], by rw [g2, h2], ?_, ?_⟩
        · rw [pushedLog_append, h4, g3]; rfl
        · rw [shiftedLog_append, h5, List.nil_append, ← h3]
          exact g4
    · simp [QueueEffect, pushedLog, shiftedLog]
  | crashed => simp [QueueEffect, pushedLog, shiftedLog]

/-- The three kinds of event, seen from the queue: nothing happens to it; an
accepted request sorts its entries into it; the dispatcher shifts its head. -/
theorem step_cases (s : Sys) (ev : Event) :
    s.clock ≤ (step s ev).1.clock ∧
    (((step s ev).1.state.processingQueue = s.state.processingQueue ∧
        shiftedLog (step s ev).2 = [] ∧ pushedLog (step s ev).2 = []) ∨
     ((step s ev).1.state.processingQueue =
          sortQueue (s.state.processingQueue ++ pushedLog (step s ev).2) ∧
        shiftedLog (step s ev).2 = [] ∧
        (pushedLog (step s ev).2).Pairwise (fun a b => a.createdAt ≤ b.createdAt) ∧
        (∃ body env, ev = Event.ingest body env ∧
          pushedLog (step s ev).2 = (postIngest s.state s.clock body env).pushed ∧
          (postIngest s.state s.clock body env).response.code = 200) ∧
        ∀ e ∈ pushedLog (step s ev).2,
          s.clock ≤ e.createdAt ∧ e.createdAt ≤ (step s ev).1.clock ∧ e.ids ≠ []) ∨
     (∃ e, s.state.processingQueue = e :: (step s ev).1.state.processingQueue ∧
        shiftedLog (step s ev).2 = [e] ∧ pushedLog (step s ev).2 = [])) := by
  cases ev with
  | tick ms =>
    have : (0 : Int) ≤ ms := Int.ofNat_nonneg _
    refine ⟨?_, Or.inl ⟨rfl, rfl, rfl⟩⟩
    show s.clock ≤ s.clock + ms
    omega
  | status id => exact ⟨le_refl _, Or.inl ⟨rfl, rfl, rfl⟩⟩
  | ingest body env =>
    have e1 : (step s (Event.ingest body env)).1.state = (postIngest s.state s.clock body env).state :=
      rfl
    have e2 : (step s (Event.ingest body env)).1.clock = (postIngest s.state s.clock body env).clock :=
      rfl
    have e3 : pushedLog (step s (Event.ingest body env)).2
        = (postIngest s.state s.clock body env).pushed := pushedLog_map_pushed _
    have e4 : shiftedLog (step s (Event.ingest body env)).2 = [] := shiftedLog_map_pushed _
    rw [e1, e2, e3, e4]
    rcases postIngest_cases s.state s.clock body env with
      ⟨h1, h2, h3, _⟩ | ⟨h1, h2, _, h3, h4, _, h5⟩
    · rw [h1, h2, h3]
      exact ⟨le_refl _, Or.inl ⟨rfl, rfl, rfl⟩⟩
    · refine ⟨h3, Or.inr (Or.inl ⟨h2, rfl, h4, ⟨body, env, rfl, rfl, h1⟩, ?_⟩)⟩
      intro e he
      exact ⟨(h5 e he).1, (h5 e he).2.1, (h5 e he).2.2.1⟩
  | timer =>
    obtain ⟨h1, _, h3, h4⟩ := resume_effect s
    show s.clock ≤ (resume s).1.clock ∧ _
    refine ⟨by rw [h1], ?_⟩
    rcases h4 with ⟨h4, h5⟩ | ⟨e, h4, h5⟩
    · exact Or.inl ⟨h4, h5, h3⟩
    · exact Or.inr (Or.inr ⟨e, h4, h5, h3⟩)

/-! ## The queue is sorted in every reachable state -/

theorem queueInv_init (clock : Int) : QueueInv (Sys.init clock) := by
  simp [QueueInv, Sys.init, State.init]

theorem queueInv_step (s : Sys) (ev : Event) (h : QueueInv s) : QueueInv (step s ev).1 := by
  obtain ⟨hs, hc⟩ := h
  obtain ⟨hclock, hcases⟩ := step_cases s ev
  rcases hcases with ⟨hq, _, _⟩ | ⟨hq, _, _, _, hnew⟩ | ⟨e, hq, _, _⟩
  · refine ⟨by rw [hq]; exact hs, ?_⟩
    intro e he
    rw [hq] at he
    have := hc e he
    omega
  · refine ⟨by rw [hq]; exact sortQueue_sorted _, ?_⟩
    intro e he
    rw [hq, mem_sortQueue] at he
    rcases List.mem_append.mp he with he | he
    · have := hc e he
      omega
    · exact (hnew e he).2.1
  · rw [hq] at hs hc
    refine ⟨hs.of_cons, ?_⟩
    intro x hx
    have := hc x (List.mem_cons_of_mem _ hx)
    omega

theorem queueInv_run (evs : List Event) (s : Sys) (h : QueueInv s) : QueueInv (run s evs).1 := by
  have := run_invariant (fun s _ => QueueInv s) (fun s _ ev hs => queueInv_step s ev hs) evs s [] h
  exact this

theorem queueInv_reachable (s : Sys) (h : Reachable s) : QueueInv s := by
  obtain ⟨clock, evs, _, rfl⟩ := h
  exact queueInv_run evs _ (queueInv_init clock)

theorem startBatch_shift (s : Sys) (e : QueueEntry) (rest : List QueueEntry)
    (hq : s.state.processingQueue = e :: rest) :
    shiftedLog (startBatch s).2 = [e] ∧ (startBatch s).1.state.processingQueue = rest := by
  obtain ⟨_, _, _, h⟩ := startBatch_effect s
  rcases h with ⟨h1, h2⟩ | ⟨x, h1, h2⟩
  · exfalso
    unfold startBatch at h2
    rw [hq] at h2
    dsimp only at h2
    split at h2
    · simp [shiftedLog] at h2
    · split at h2 <;> simp [shiftedLog, finishBatch] at h2
  · rw [hq] at h1
    cases h1
    exact ⟨h2, rfl⟩

/-- C5: in a reachable state whose queue is not empty, the entry that
`processingQueue.shift()` removes has the least priority value of the queue
and, among the entries of that value, the least `createdAt`. -/
theorem shift_takes_least (s : Sys) (hs : Reachable s) (e : QueueEntry)
    (rest : List QueueEntry) (hq : s.state.processingQueue = e :: rest) :
    shiftedLog (startBatch s).2 = [e] ∧ (startBatch s).1.state.processingQueue = rest ∧
    ∀ x ∈ s.state.processingQueue, e.priorityValue ≤ x.priorityValue ∧
      (x.priorityValue = e.priorityValue → e.createdAt ≤ x.createdAt) := by
  obtain ⟨h1, h2⟩ := startBatch_shift s e rest hq
  refine ⟨h1, h2, ?_⟩
  have hsorted := (queueInv_reachable s hs).1
  rw [hq] at hsorted ⊢
  exact sorted_head_least e rest hsorted

theorem shift_takes_least_witness :
    ∃ e rest, (run (Sys.init 0) lowThenHigh).1.state.processingQueue = e :: rest ∧
      e.batchId = "high-0" ∧
      shiftedLog (startBatch (run (Sys.init 0) lowThenHigh).1).2 = [e] ∧
      (startBatch (run (Sys.init 0) lowThenHigh).1).1.state.processingQueue = rest ∧
      ∀ x ∈ (run (Sys.init 0) lowThenHigh).1.state.processingQueue,
        e.priorityValue ≤ x.priorityValue ∧
        (x.priorityValue = e.priorityValue → e.createdAt ≤ x.createdAt) :=
  ⟨_, _, rfl, by decide,
    shift_takes_least (run (Sys.init 0) lowThenHigh).1 ⟨0, lowThenHigh, by decide, rfl⟩ _ _ rfl⟩

/-! ## HIGH before LOW -/

theorem shifted_after (N : List QueueEntry) (hN : ∀ h ∈ N, h.priorityValue = 0) :
    ∀ (evs : List Event) (s : Sys), s.state.processingQueue.Sorted entryLe →
      (∀ h ∈ N, h ∈ s.state.processingQueue) →
      ∀ (pre post : List QueueEntry) (low : QueueEntry), low.priorityValue = 2 →
        shiftedLog (run s evs).2 = pre ++ low :: post → ∀ h ∈ N, h ∈ pre := by
  intro evs s hs hmem
  have key := run_invariant
    (fun s L => s.state.processingQueue.Sorted entryLe ∧
      (∀ h ∈ N, h ∈ shiftedLog L ∨ h ∈ s.state.processingQueue) ∧
      (∀ (pre post : List QueueEntry) (low : QueueEntry), low.priorityValue = 2 →
        shiftedLog L = pre ++ low :: post → ∀ h ∈ N, h ∈ pre))
    ?_ evs s [] ⟨hs, fun h hh => Or.inr (hmem h hh), ?_⟩
  · simpa using key.2.2
  · intro s L ev ⟨h1, h2, h3⟩
    obtain ⟨_, hcases⟩ := step_cases s ev
    rw [shiftedLog_append]
    rcases hcases with ⟨hq, hsh, _⟩ | ⟨hq, hsh, _, _, _⟩ | ⟨e, hq, hsh, _⟩
    · rw [hq, hsh, List.append_nil]
      exact ⟨h1, h2, h3⟩
    · rw [hq, hsh, List.append_nil]
      refine ⟨sortQueue_sorted _, ?_, h3⟩
      intro h hh
      rcases h2 h hh with hl | hr
      · exact Or.inl hl
      · exact Or.inr (mem_sortQueue.mpr (List.mem_append_left _ hr))
    · rw [hsh]
      rw [hq] at h1 h2
      refine ⟨h1.of_cons, ?_, ?_⟩
      · intro h hh
        rcases h2 h hh with hl | hr
        · exact Or.inl (List.mem_append_left _ hl)
        · rcases List.mem_cons.mp hr with rfl | hr
          · exact Or.inl (List.mem_append_right _ (List.mem_singleton_self _))
          · exact Or.inr hr
      · intro pre post low hlow hlog h hh
        rcases List.eq_nil_or_concat post with rfl | ⟨post', z, rfl⟩
        · have hlog2 : shiftedLog L ++ [e] = pre ++ [low] := hlog
          obtain ⟨e1, e2⟩ := List.append_inj' hlog2 rfl
          cases e2
          rw [← e1]
          rcases h2 h hh with hl | hr
          · exact hl
          · exfalso
            have hle := (sorted_head_least e _ h1) h hr
            have := hN h hh
            omega
        · have hlog2 : shiftedLog L ++ [e] = (pre ++ low :: post') ++ [z] := by
            rw [hlog]; simp
          obtain ⟨e1, _⟩ := List.append_inj' hlog2 rfl
          exact h3 pre post' low hlow e1 h hh
  · intro pre post low _ hlog
    simp [shiftedLog] at hlog

/-- C6: from a reachable state, once a HIGH request has been accepted, along
every continuation the dispatcher shifts each entry of the HIGH request before
it shifts an entry of a LOW request that was in the queue at that moment. -/
theorem high_before_low (s : Sys) (hs : Reachable s) (body : Body) (env : IngestEnv)
    (hprio : body.priority = JsVal.str "HIGH")
    (hok : (postIngest s.state s.clock body env).response.code = 200)
    (low : QueueEntry) (hlow : low ∈ s.state.processingQueue) (hlp : low.priorityValue = 2)
    (evs : List Event) (pre post : List QueueEntry)
    (hlog : shiftedLog (run (step s (Event.ingest body env)).1 evs).2 = pre ++ low :: post) :
    low ∈ (step s (Event.ingest body env)).1.state.processingQueue ∧
    ∀ h ∈ (postIngest s.state s.clock body env).pushed,
      h ∈ (step s (Event.ingest body env)).1.state.processingQueue ∧ h ∈ pre := by
  have hinv := queueInv_step s (Event.ingest body env) (queueInv_reachable s hs)
  rcases postIngest_cases s.state s.clock body env with ⟨_, _, _, h400⟩ | ⟨_, hq, _, _, _, hpv, _⟩
  · rw [hok] at h400
    exact absurd h400 (by decide)
  · obtain ⟨pv, hpv1, hpv2⟩ := hpv
    rw [hprio] at hpv1
    have hpv0 : pv = 0 := by
      have : priorityLevel (JsVal.str "HIGH") = some 0 := by decide
      rw [this] at hpv1
      exact (Option.some.inj hpv1).symm
    have hq2 : (step s (Event.ingest body env)).1.state.processingQueue =
        sortQueue (s.state.processingQueue ++ (postIngest s.state s.clock body env).pushed) := hq
    have hin : ∀ h ∈ (postIngest s.state s.clock body env).pushed,
        h ∈ (step s (Event.ingest body env)).1.state.processingQueue := by
      intro h hh
      rw [hq2, mem_sortQueue]
      exact List.mem_append_right _ hh
    have hmain := shifted_after (postIngest s.state s.clock body env).pushed
      (fun h hh => by rw [hpv2 h hh, hpv0]) evs _ hinv.1 hin pre post low hlp hlog
    refine ⟨?_, fun h hh => ⟨hin h hh, hmain h hh⟩⟩
    rw [hq2, mem_sortQueue]
    exact List.mem_append_left _ hlow

theorem high_before_low_witness :
    lowEntry ∈ lowQueued.state.processingQueue ∧
    shiftedLog (run (step lowQueued (Event.ingest highBody (envOf "high"))).1 drain).2 =
      (postIngest lowQueued.state lowQueued.clock highBody (envOf "high")).pushed
        ++ lowEntry :: [] ∧
    lowEntry ∈ (step lowQueued (Event.ingest highBody (envOf "high"))).1.state.processingQueue ∧
    ∀ h ∈ (postIngest lowQueued.state lowQueued.clock highBody (envOf "high")).pushed,
      h ∈ (step lowQueued (Event.ingest highBody (envOf "high"))).1.state.processingQueue ∧
      h ∈ (postIngest lowQueued.state lowQueued.clock highBody (envOf "high")).pushed :=
  ⟨List.mem_cons_self _ _, rfl,
    high_before_low lowQueued ⟨0, _, by decide, rfl⟩ highBody (envOf "high") rfl (by decide)
      lowEntry (List.mem_cons_self _ _) rfl drain _ [] rfl⟩

/-! ## First in, first out within a priority class -/

/-- C7: along every run, for each priority value the entries of that value
leave the queue in the order in which they were pushed: the pushed entries of
the value are, in order, those already shifted followed by those still queued.
Entries with equal `createdAt` keep their insertion order through every later
sort. -/
theorem fifo_within_class (clock : Int) (evs : List Event) (p : Int) :
    (pushedLog (run (Sys.init clock) evs).2).filter (fun e => e.priorityValue = p) =
      (shiftedLog (run (Sys.init clock) evs).2).filter (fun e => e.priorityValue = p) ++
        (run (Sys.init clock) evs).1.state.processingQueue.filter
          (fun e => e.priorityValue = p) := by
  have key := run_invariant
    (fun s L => QueueInv s ∧
      (pushedLog L).filter (fun e => e.priorityValue = p) =
        (shiftedLog L).filter (fun e => e.priorityValue = p) ++
          s.state.processingQueue.filter (fun e => e.priorityValue = p))
    ?_ evs (Sys.init clock) [] ⟨queueInv_init clock, by simp [pushedLog, shiftedLog, Sys.init, State.init]⟩
  · simpa using key.2
  · intro s L ev ⟨hinv, hlog⟩
    refine ⟨queueInv_step s ev hinv, ?_⟩
    obtain ⟨_, hcases⟩ := step_cases s ev
    rw [shiftedLog_append, pushedLog_append, List.filter_append, List.filter_append]
    rcases hcases with ⟨hq, hsh, hpu⟩ | ⟨hq, hsh, hpair, _, hnew⟩ | ⟨e, hq, hsh, hpu⟩
    · rw [hq, hsh, hpu]
      simpa using hlog
    · rw [hq, hsh]
      rw [sortQueue_filter _ _ p hinv.1 hpair]
      · rw [hlog]
        simp
      · intro x hx y hy
        have h1 := hinv.2 x hx
        have h2 := (hnew y hy).1
        omega
    · rw [hsh, hpu, hlog, hq]
      simp only [List.filter_nil, List.append_nil, List.append_assoc]
      congr 1
      by_cases hp : e.priorityValue = p
      · simp [List.filter_cons, hp]
      · simp [List.filter_cons, hp]

/-! ## The status seen by `GET /status` while the dispatcher works -/

/-- C8, evaluated: the dispatcher has shifted the only entry of a stored
submission and marked it triggered, it is in its `for` loop; the batch record
of the store still has status `yet_to_start` and `GET /status` reports the
submission as `yet_to_start`. The write went to the queue entry, which is a
copy of the stored batch. -/
theorem started_batch_not_visible :
    (run (Sys.init 0) untilStarted).2 =
      [Obs.pushed queuedEntry, Obs.shifted queuedEntry,
       Obs.triggered { queuedEntry with status := BatchStatus.TRIGGERED } 1000] ∧
    (∃ request, mapGet (run (Sys.init 0) untilStarted).1.state.requests "a" = some request) ∧
    (run (Sys.init 0) untilStarted).1.dispatcher =
      Dispatcher.working { queuedEntry with status := BatchStatus.TRIGGERED } [.int 1] 2000 ∧
    getStatus (run (Sys.init 0) untilStarted).1.state "a" =
      StatusResponse.ok "a" OverallStatus.YET_TO_START [storedBatch] := by
  refine ⟨rfl, ⟨_, rfl⟩, rfl, rfl⟩

/-- C9, evaluated: the dispatcher has shifted, processed and completed the only
batch of a submission, and the queue is empty; the batch record of the store
still has status `yet_to_start` and `GET /status` reports `yet_to_start`. -/
theorem finished_batch_not_visible :
    (run (Sys.init 0) untilFinished).2 =
      [Obs.pushed queuedEntry, Obs.shifted queuedEntry,
       Obs.triggered { queuedEntry with status := BatchStatus.TRIGGERED } 1000,
       Obs.completed { queuedEntry with status := BatchStatus.COMPLETED } 2000] ∧
    (run (Sys.init 0) untilFinished).1.state.processingQueue = [] ∧
    (run (Sys.init 0) untilFinished).1.state.lastProcessedTime = some 2000 ∧
    getStatus (run (Sys.init 0) untilFinished).1.state "a" =
      StatusResponse.ok "a" OverallStatus.YET_TO_START [storedBatch] := by
  refine ⟨rfl, rfl, rfl, rfl⟩

/-! ## The throttle -/

theorem chain_concat (T : List Int) (x : Int) (h : T.Chain' (fun a b => a + 5000 ≤ b))
    (hx : ∀ t ∈ T.getLast?, t + 5000 ≤ x) : (T ++ [x]).Chain' (fun a b => a + 5000 ≤ b) := by
  rw [List.chain'_append]
  refine ⟨h, List.chain'_singleton x, ?_⟩
  intro t ht y hy
  simp only [List.head?_cons, Option.mem_def, Option.some.injEq] at hy
  subst hy
  exact hx t ht

theorem startBatch_throttle (s : Sys) (T : List Int) (h0 : 0 ≤ s.clock)
    (hT : T.Chain' (fun a b => a + 5000 ≤ b))
    (hids : ∀ e ∈ s.state.processingQueue, e.ids ≠ [])
    (hb : Baseline s T) (hgap : ∀ t ∈ T.getLast?, t + 5000 ≤ s.clock) :
    ThrottleInv (startBatch s).1 (T ++ triggerTimes (startBatch s).2) := by
  unfold startBatch
  cases hq : s.state.processingQueue with
  | nil =>
    simp only [triggerTimes, List.append_nil]
    exact ⟨h0, hT, by simp [hq], trivial⟩
  | cons batch rest =>
    have hrest : ∀ e ∈ rest, e.ids ≠ [] := fun e he =>
      hids e (by rw [hq]; exact List.mem_cons_of_mem _ he)
    dsimp only
    cases hr : mapGet s.state.requests batch.ingestionId with
    | none =>
      simp only [triggerTimes, List.append_nil]
      exact ⟨h0, hT, hrest, hb⟩
    | some req =>
      dsimp only
      cases hi : batch.ids with
      | nil => exact absurd hi (hids batch (by rw [hq]; exact List.mem_cons_self _ _))
      | cons id ids =>
        simp only [triggerTimes]
        refine ⟨h0, chain_concat T s.clock hT hgap, hrest, ?_⟩
        intro t ht
        simp only [List.getLast?_append, List.getLast?_singleton, Option.or,
          Option.mem_def, Option.some.injEq] at ht
        subst ht
        exact ⟨h0, le_refl _⟩

theorem loopHead_throttle (s : Sys) (T : List Int) (h0 : 0 ≤ s.clock)
    (hT : T.Chain' (fun a b => a + 5000 ≤ b))
    (hids : ∀ e ∈ s.state.processingQueue, e.ids ≠ [])
    (hb : Baseline s T) :
    ThrottleInv (loopHead s).1 (T ++ triggerTimes (loopHead s).2) := by
  unfold loopHead
  by_cases hq : s.state.processingQueue.length > 0
  · rw [if_pos hq]
    dsimp only
    cases hl : s.state.lastProcessedTime with
    | none =>
      dsimp only
      apply startBatch_throttle s T h0 hT hids hb
      intro t ht
      obtain ⟨last, h1, _⟩ := hb t ht
      rw [hl] at h1
      cases h1
    | some last =>
      dsimp only
      by_cases hc : last ≠ 0 ∧ s.clock - last < 5000
      · rw [if_pos hc]
        simp only [triggerTimes, List.append_nil]
        refine ⟨h0, hT, hids, hb, ?_⟩
        intro t ht
        obtain ⟨last2, h1, _, h3⟩ := hb t ht
        rw [hl] at h1
        cases h1
        omega
      · rw [if_neg hc]
        apply startBatch_throttle s T h0 hT hids hb
        intro t ht
        obtain ⟨last2, h1, h2, h3⟩ := hb t ht
        rw [hl] at h1
        cases h1
        have : ¬ s.clock - last < 5000 := fun h => hc ⟨h2, h⟩
        omega
  · rw [if_neg hq]
    simp only [triggerTimes, List.append_nil]
    exact ⟨h0, hT, hids, hb⟩

theorem resume_throttle (s : Sys) (T : List Int) (h : ThrottleInv s T) :
    ThrottleInv (resume s).1 (T ++ triggerTimes (resume s).2) := by
  obtain ⟨h0, hT, hids, hd⟩ := h
  unfold resume
  cases hdisp : s.dispatcher with
  | loopTop =>
    rw [hdisp] at hd
    exact loopHead_throttle s T h0 hT hids hd
  | idle wake =>
    rw [hdisp] at hd
    dsimp only
    by_cases hw : wake ≤ s.clock
    · rw [if_pos hw]
      exact loopHead_throttle s T h0 hT hids hd
    · rw [if_neg hw]
      simp only [triggerTimes, List.append_nil]
      refine ⟨h0, hT, hids, ?_⟩
      rw [hdisp]
      exact hd
  | throttled wake =>
    rw [hdisp] at hd
    dsimp only
    by_cases hw : wake ≤ s.clock
    · rw [if_pos hw]
      apply startBatch_throttle s T h0 hT hids hd.1
      intro t ht
      have := hd.2 t ht
      omega
    · rw [if_neg hw]
      simp only [triggerTimes, List.append_nil]
      refine ⟨h0, hT, hids, ?_⟩
      rw [hdisp]
      exact hd
  | working batch remaining wake =>
    rw [hdisp] at hd
    dsimp only
    by_cases hw : wake ≤ s.clock
    · rw [if_pos hw]
      have hfin : ThrottleInv (loopHead (finishBatch s batch).1).1
          (T ++ triggerTimes ((finishBatch s batch).2 ++ (loopHead (finishBatch s batch).1).2)) := by
        have e : triggerTimes ((finishBatch s batch).2 ++ (loopHead (finishBatch s batch).1).2)
            = triggerTimes (loopHead (finishBatch s batch).1).2 := by
          rw [triggerTimes_append]
          simp [finishBatch, triggerTimes]
        rw [e]
        apply loopHead_throttle _ T
        · exact h0
        · exact hT
        · exact hids
        · intro t ht
          have := hd t ht
          refine ⟨s.clock, rfl, ?_, ?_⟩
          · show s.clock ≠ 0
            omega
          · show t ≤ s.clock
            omega
      split
      · simp only [triggerTimes, List.append_nil]
        refine ⟨h0, hT, hids, ?_⟩
        intro t ht
        have := hd t ht
        exact ⟨this.1, by show t + 1000 ≤ s.clock + 1000; omega⟩
      · exact hfin
    · rw [if_neg hw]
      simp only [triggerTimes, List.append_nil]
      refine ⟨h0, hT, hids, ?_⟩
      rw [hdisp]
      exact hd
  | crashed =>
    simp only [triggerTimes, List.append_nil]
    refine ⟨h0, hT, hids, ?_⟩
    rw [hdisp]
    trivial

theorem dispatcherInv_state (s s2 : Sys) (T : List Int) (d : Dispatcher)
    (h : s2.state.lastProcessedTime = s.state.lastProcessedTime)
    (hd : DispatcherInv s T d) : DispatcherInv s2 T d := by
  cases d <;> simp only [DispatcherInv, Baseline, h] at hd ⊢ <;> exact hd

theorem step_throttle (s : Sys) (L : List Obs) (ev : Event)
    (h : ThrottleInv s (triggerTimes L)) :
    ThrottleInv (step s ev).1 (triggerTimes (L ++ (step s ev).2)) := by
  rw [triggerTimes_append]
  cases ev with
  | timer => exact resume_throttle s _ h
  | status id =>
    simp only [step, triggerTimes, List.append_nil]
    exact h
  | tick ms =>
    obtain ⟨h0, hT, hids, hd⟩ := h
    have : (0 : Int) ≤ ms := Int.ofNat_nonneg _
    simp only [step, triggerTimes, List.append_nil]
    exact ⟨by show 0 ≤ s.clock + ms; omega, hT, hids, dispatcherInv_state s _ _ _ rfl hd⟩
  | ingest body env =>
    obtain ⟨h0, hT, hids, hd⟩ := h
    have e1 : triggerTimes (step s (Event.ingest body env)).2 = [] := triggerTimes_map_pushed _
    rw [e1, List.append_nil]
    have e2 : (step s (Event.ingest body env)).1.dispatcher = s.dispatcher := rfl
    have e3 : (step s (Event.ingest body env)).1.state = (postIngest s.state s.clock body env).state :=
      rfl
    have e4 : (step s (Event.ingest body env)).1.clock = (postIngest s.state s.clock body env).clock :=
      rfl
    unfold ThrottleInv
    rw [e2, e3, e4]
    rcases postIngest_cases s.state s.clock body env with
      ⟨h1, h2, _, _⟩ | ⟨_, h2, h3, h4, _, _, h5⟩
    · rw [h1, h2]
      exact ⟨h0, hT, hids, dispatcherInv_state s _ _ _ (by rw [e3, h1]) hd⟩
    · refine ⟨by omega, hT, ?_, dispatcherInv_state s _ _ _ (by rw [e3, h3]) hd⟩
      intro e he
      rw [h2, mem_sortQueue] at he
      rcases List.mem_append.mp he with he | he
      · exact hids e he
      · exact (h5 e he).2.2.1

/-- C10: with the clock explicit (it starts at a non-negative reading, never
goes backwards, and a timeout is served only once its duration has elapsed),
any two consecutive triggers are at least 5000 ms apart; nothing is required
of the first trigger. -/
theorem throttle_gap (clock : Int) (h0 : 0 ≤ clock) (evs : List Event) :
    (triggerTimes (run (Sys.init clock) evs).2).Chain' (fun a b => a + 5000 ≤ b) := by
  have key := run_invariant (fun s L => ThrottleInv s (triggerTimes L)) step_throttle evs
    (Sys.init clock) [] ?_
  · simpa using key.2.1
  · refine ⟨h0, List.chain'_nil, ?_, ?_⟩
    · simp [Sys.init, State.init]
    · intro t ht
      simp [triggerTimes] at ht

theorem throttle_gap_witness :
    (0 : Int) ≤ 0 ∧ triggerTimes (run (Sys.init 0) busyRun).2 = [10010, 50010, 70010] ∧
    (triggerTimes (run (Sys.init 0) busyRun).2).Chain' (fun a b => a + 5000 ≤ b) :=
  ⟨le_refl _, rfl, throttle_gap 0 (le_refl _) busyRun⟩

/-! ## The store -/

theorem mapGet_mapSet_ne (m : List (String × Request)) (key k : String) (value : Request)
    (h : k ≠ key) : mapGet (mapSet m key value) k = mapGet m k := by
  induction m with
  | nil =>
    have hne : (k == key) = false := by simpa using h
    simp [mapSet, mapGet, List.lookup, hne]
  | cons p rest ih =>
    obtain ⟨k1, v1⟩ := p
    unfold mapSet
    by_cases hk : k1 = key
    · rw [if_pos hk]
      have hne : (k == k1) = false := by
        rw [hk]
        simpa using h
      simp [mapGet, List.lookup, hne]
    · rw [if_neg hk]
      unfold mapGet at ih ⊢
      by_cases hkk : k = k1
      · subst hkk
        simp [List.lookup]
      · have hne : (k == k1) = false := by simpa using hkk
        rw [List.lookup, hne, List.lookup, hne]
        exact ih

theorem mem_mapSet (m : List (String × Request)) (key : String) (value : Request)
    (p : String × Request) (h : p ∈ mapSet m key value) : p ∈ m ∨ p = (key, value) := by
  induction m with
  | nil =>
    simp only [mapSet, List.mem_singleton] at h
    exact Or.inr h
  | cons q rest ih =>
    obtain ⟨k1, v1⟩ := q
    unfold mapSet at h
    by_cases hk : k1 = key
    · rw [if_pos hk] at h
      rcases List.mem_cons.mp h with h | h
      · right
        rw [h, hk]
      · left
        exact List.mem_cons_of_mem _ h
    · rw [if_neg hk] at h
      rcases List.mem_cons.mp h with h | h
      · left
        rw [h]
        exact List.mem_cons_self _ _
      · rcases ih h with h | h
        · exact Or.inl (List.mem_cons_of_mem _ h)
        · exact Or.inr h

theorem mapGet_mem (m : List (String × Request)) (key : String) (value : Request)
    (h : mapGet m key = some value) : (key, value) ∈ m := by
  induction m with
  | nil => simp [mapGet, List.lookup] at h
  | cons q rest ih =>
    obtain ⟨k1, v1⟩ := q
    unfold mapGet at h ih
    by_cases hk : key = k1
    · subst hk
      simp only [List.lookup, beq_self_eq_true, Option.some.injEq] at h
      rw [h]
      exact List.mem_cons_self _ _
    · have hne : (key == k1) = false := by simpa using hk
      rw [List.lookup, hne] at h
      exact List.mem_cons_of_mem _ (ih h)

theorem makeBatches_status (ids : List JsVal) (env : IngestEnv) (clock : Int) :
    ∀ b ∈ makeBatches ids env clock, b.status = BatchStatus.YET_TO_START := by
  intro b hb
  obtain ⟨k, hk⟩ := List.getElem?_of_mem hb
  exact (makeBatches_getElem? ids env clock k b hk).2

/-- What an event does to the store: nothing, or an accepted request is set
under its ingestion identifier. -/
theorem step_requests (s : Sys) (ev : Event) :
    (step s ev).1.state.requests = s.state.requests ∨
    ∃ body env ids, ev = Event.ingest body env ∧ body.ids = JsVal.arr ids ∧
      (postIngest s.state s.clock body env).response.code = 200 ∧
      ∃ createdAt, (step s ev).1.state.requests =
        mapSet s.state.requests env.ingestionId
          { ingestionId := env.ingestionId
            ids := ids
            priority := body.priority
            batches := makeBatches ids env s.clock
            createdAt := createdAt } := by
  cases ev with
  | tick ms => exact Or.inl rfl
  | status id => exact Or.inl rfl
  | timer => exact Or.inl (resume_effect s).2.1
  | ingest body env =>
    rcases postIngest_cases s.state s.clock body env with ⟨h1, _, _, _⟩ | ⟨h1, _⟩
    · left
      show (postIngest s.state s.clock body env).state.requests = _
      rw [h1]
    · right
      obtain ⟨ids, pv, hb, _, _, _, hst, _, _⟩ := postIngest_ok s.state s.clock body env h1
      refine ⟨body, env, ids, rfl, hb, h1,
        lastReading s.clock (makeBatches ids env s.clock) + env.finalDelay, ?_⟩
      show (postIngest s.state s.clock body env).state.requests = _
      rw [hst]

theorem mapGet_step_isSome (s : Sys) (ev : Event) (id : String)
    (h : (mapGet s.state.requests id).isSome = true) :
    (mapGet (step s ev).1.state.requests id).isSome = true := by
  rcases step_requests s ev with h1 | ⟨body, env, ids, _, _, _, c, h1⟩
  · rw [h1]; exact h
  · rw [h1]
    by_cases hid : id = env.ingestionId
    · rw [hid, mapGet_mapSet_self]; rfl
    · rw [mapGet_mapSet_ne _ _ _ _ hid]; exact h

theorem mapGet_run_isSome (evs : List Event) : ∀ (s : Sys) (id : String),
    (mapGet s.state.requests id).isSome = true →
    (mapGet (run s evs).1.state.requests id).isSome = true := by
  induction evs with
  | nil => intro s id h; exact h
  | cons ev evs ih =>
    intro s id h
    exact ih (step s ev).1 id (mapGet_step_isSome s ev id h)

/-! ## Rejected requests -/

/-- C15: when `POST /ingest` answers 400 the store, the queue and the throttle
baseline are what they were, and nothing was pushed. -/
theorem rejected_ingest_changes_nothing (s : Sys) (body : Body) (env : IngestEnv)
    (h : (postIngest s.state s.clock body env).response.code = 400) :
    (postIngest s.state s.clock body env).state = s.state ∧
    (postIngest s.state s.clock body env).pushed = [] ∧
    (step s (Event.ingest body env)).1.state.requests = s.state.requests ∧
    (step s (Event.ingest body env)).1.state.processingQueue = s.state.processingQueue ∧
    (step s (Event.ingest body env)).2 = [] := by
  rcases postIngest_cases s.state s.clock body env with ⟨h1, _, h3, _⟩ | ⟨h1, _⟩
  · refine ⟨h1, h3, ?_, ?_, ?_⟩
    · show (postIngest s.state s.clock body env).state.requests = _
      rw [h1]
    · show (postIngest s.state s.clock body env).state.processingQueue = _
      rw [h1]
    · show (postIngest s.state s.clock body env).pushed.map Obs.pushed = []
      rw [h3]
      rfl
  · rw [h] at h1
    exact absurd h1 (by decide)

theorem rejected_ingest_changes_nothing_witness :
    (postIngest lowQueued.state lowQueued.clock secondIdInvalid (envOf "b")).response.code = 400 ∧
    (postIngest lowQueued.state lowQueued.clock secondIdInvalid (envOf "b")).state
      = lowQueued.state ∧
    (postIngest lowQueued.state lowQueued.clock secondIdInvalid (envOf "b")).pushed = [] ∧
    (step lowQueued (Event.ingest secondIdInvalid (envOf "b"))).1.state.requests
      = lowQueued.state.requests ∧
    (step lowQueued (Event.ingest secondIdInvalid (envOf "b"))).1.state.processingQueue
      = lowQueued.state.processingQueue ∧
    (step lowQueued (Event.ingest secondIdInvalid (envOf "b"))).2 = [] :=
  ⟨by decide, rejected_ingest_changes_nothing lowQueued secondIdInvalid (envOf "b") (by decide)⟩

/-! ## Status queries: found or not found -/

/-- C16: `GET /status/:ingestionId` answers 404 exactly when the identifier is
not a key of the store; after an accepted `POST /ingest`, whatever happens
next, it answers 200 for the returned identifier, with that identifier, a
status and the batches of the request stored under it. -/
theorem status_found_iff (s : Sys) (body : Body) (env : IngestEnv)
    (hok : (postIngest s.state s.clock body env).response.code = 200) (evs : List Event) :
    (∀ (st : State) (id : String),
      ((getStatus st id).code = 404 ↔ mapGet st.requests id = none) ∧
      ((getStatus st id).code ≠ 404 → (getStatus st id).code = 200)) ∧
    (postIngest s.state s.clock body env).response = IngestResponse.ok env.ingestionId ∧
    ∃ request,
      mapGet (run (step s (Event.ingest body env)).1 evs).1.state.requests env.ingestionId
        = some request ∧
      getStatus (run (step s (Event.ingest body env)).1 evs).1.state env.ingestionId =
        StatusResponse.ok env.ingestionId (overallStatus request.batches) request.batches := by
  refine ⟨?_, ?_, ?_⟩
  · intro st id
    unfold getStatus
    cases h : mapGet st.requests id with
    | none => simp [StatusResponse.code]
    | some req => simp [StatusResponse.code]
  · exact (postIngest_ok s.state s.clock body env hok).choose_spec.choose_spec.2.2.2.2.2.2
  · obtain ⟨ids, pv, _, _, _, _, hst, _, _⟩ := postIngest_ok s.state s.clock body env hok
    have h1 : (mapGet (step s (Event.ingest body env)).1.state.requests env.ingestionId).isSome
        = true := by
      show (mapGet (postIngest s.state s.clock body env).state.requests env.ingestionId).isSome
        = true
      rw [hst, mapGet_mapSet_self]
      rfl
    have h2 := mapGet_run_isSome evs _ _ h1
    obtain ⟨req, hreq⟩ := Option.isSome_iff_exists.mp h2
    refine ⟨req, hreq, ?_⟩
    unfold getStatus
    rw [hreq]

theorem status_found_iff_witness :
    (postIngest (Sys.init 0).state 0 oneId (envOf "a")).response = IngestResponse.ok "a" ∧
    (getStatus (run (Sys.init 0) untilFinished).1.state "a").code = 200 ∧
    (getStatus (run (Sys.init 0) untilFinished).1.state "b").code = 404 := by
  obtain ⟨h1, h2, req, _, h4⟩ := status_found_iff (Sys.init 0) oneId (envOf "a") (by decide)
    [Event.tick 1000, Event.timer, Event.tick 1000, Event.timer]
  refine ⟨h2, ?_, ?_⟩
  · exact congrArg StatusResponse.code h4
  · exact ((h1 _ "b").1).mpr rfl

/-! ## The queue stays sorted -/

theorem sorted_inOrder (q : List QueueEntry) (h : q.Sorted entryLe) : q.Chain' inOrder := by
  have h1 : q.Chain' entryLe := List.Pairwise.chain' h
  exact List.Chain'.imp (fun a b hab => (entryLe_iff a b).mp hab) h1

/-- C17: in every reachable state, and so after every accepted request and
after every shift by the dispatcher, each entry of the queue and its successor
are in order: a smaller priority value, or the same value and a creation time
that is not larger. -/
theorem queue_sorted (s : Sys) (hs : Reachable s) (ev : Event) :
    s.state.processingQueue.Chain' inOrder ∧
    (step s ev).1.state.processingQueue.Chain' inOrder ∧
    (∀ body env, (postIngest s.state s.clock body env).response.code = 200 →
      (postIngest s.state s.clock body env).state.processingQueue.Chain' inOrder) ∧
    (startBatch s).1.state.processingQueue.Chain' inOrder := by
  have hinv := queueInv_reachable s hs
  refine ⟨sorted_inOrder _ hinv.1, sorted_inOrder _ (queueInv_step s ev hinv).1, ?_, ?_⟩
  · intro body env _
    exact sorted_inOrder _ (queueInv_step s (Event.ingest body env) hinv).1
  · obtain ⟨_, _, _, h⟩ := startBatch_effect s
    rcases h with ⟨h1, _⟩ | ⟨e, h1, _⟩
    · rw [h1]
      exact sorted_inOrder _ hinv.1
    · have := hinv.1
      rw [h1] at this
      exact sorted_inOrder _ this.of_cons

theorem queue_sorted_witness :
    (run (Sys.init 0) lowThenHigh).1.state.processingQueue.map (fun e => e.batchId)
      = ["high-0", "high-3", "low-0", "low-3"] ∧
    (run (Sys.init 0) lowThenHigh).1.state.processingQueue.Chain' inOrder ∧
    (step (run (Sys.init 0) lowThenHigh).1 Event.timer).1.state.processingQueue.Chain' inOrder :=
  ⟨by decide,
    (queue_sorted (run (Sys.init 0) lowThenHigh).1 ⟨0, lowThenHigh, by decide, rfl⟩
      Event.timer).1,
    (queue_sorted (run (Sys.init 0) lowThenHigh).1 ⟨0, lowThenHigh, by decide, rfl⟩
      Event.timer).2.1⟩

/-! ## The store is never written by the dispatcher -/

theorem storeInv_step (s : Sys) (ev : Event) (h : StoreInv s.state) :
    StoreInv (step s ev).1.state := by
  unfold StoreInv
  rcases step_requests s ev with h1 | ⟨body, env, ids, _, _, _, c, h1⟩
  · rw [h1]; exact h
  · rw [h1]
    intro p hp b hb
    rcases mem_mapSet _ _ _ p hp with hp | hp
    · exact h p hp b hb
    · rw [hp] at hb
      exact makeBatches_status ids env s.clock b hb

theorem storeInv_reachable (s : Sys) (hs : Reachable s) : StoreInv s.state := by
  obtain ⟨clock, evs, _, rfl⟩ := hs
  have := run_invariant (fun s _ => StoreInv s.state) (fun s _ ev h => storeInv_step s ev h)
    evs (Sys.init clock) [] (by simp [StoreInv, Sys.init, State.init])
  exact this

theorem overallStatus_of_pending (batches : List Batch) (hne : batches ≠ [])
    (h : ∀ b ∈ batches, b.status = BatchStatus.YET_TO_START) :
    overallStatus batches = OverallStatus.YET_TO_START := by
  apply overallStatus_yetToStart
  · rintro ⟨b, hb, hs⟩
    rw [h b hb] at hs
    cases hs
  · intro hall
    cases batches with
    | nil => exact hne rfl
    | cons b rest =>
      have h1 := h b (List.mem_cons_self _ _)
      have h2 := hall b (List.mem_cons_self _ _)
      rw [h1] at h2
      cases h2

/-- C19: in every reachable state every batch record of the store has status
yet_to_start, and `GET /status` for a submission with at least one batch
answers with overall status yet_to_start. -/
theorem store_status_stays_pending (s : Sys) (hs : Reachable s) (id : String)
    (request : Request) (h : mapGet s.state.requests id = some request) :
    (∀ b ∈ request.batches, b.status = BatchStatus.YET_TO_START) ∧
    (request.batches ≠ [] →
      getStatus s.state id =
        StatusResponse.ok id OverallStatus.YET_TO_START request.batches) := by
  have hall : ∀ b ∈ request.batches, b.status = BatchStatus.YET_TO_START :=
    storeInv_reachable s hs (id, request) (mapGet_mem _ _ _ h)
  refine ⟨hall, ?_⟩
  intro hne
  unfold getStatus
  rw [h]
  dsimp only
  rw [overallStatus_of_pending _ hne hall]

theorem store_status_stays_pending_witness :
    ∃ request, mapGet (run (Sys.init 0) busyRun).1.state.requests "high" = some request ∧
      triggerTimes (run (Sys.init 0) busyRun).2 = [10010, 50010, 70010] ∧
      (∀ b ∈ request.batches, b.status = BatchStatus.YET_TO_START) ∧
      getStatus (run (Sys.init 0) busyRun).1.state "high" =
        StatusResponse.ok "high" OverallStatus.YET_TO_START request.batches :=
  ⟨_, rfl, rfl,
    (store_status_stays_pending (run (Sys.init 0) busyRun).1 ⟨0, busyRun, by decide, rfl⟩
      "high" _ rfl).1,
    (store_status_stays_pending (run (Sys.init 0) busyRun).1 ⟨0, busyRun, by decide, rfl⟩
      "high" _ rfl).2 (by intro h; cases h)⟩

/-! ## The frame of an accepted request -/

/-- C20: an accepted request of N identifiers pushes ceil(N/3) entries, one per
new batch in batch order, each with the batch's identifier and ids, the new
ingestion identifier and the request's priority; the queue afterwards is a
permutation of the old queue followed by the pushed entries; and the request
stored under any other identifier is what it was, so that with a fresh
ingestion identifier every stored submission is unchanged. -/
theorem ingest_frame (s : State) (clock : Int) (body : Body) (env : IngestEnv)
    (ids : List JsVal) (hids : body.ids = JsVal.arr ids)
    (hok : (postIngest s clock body env).response.code = 200) :
    (postIngest s clock body env).pushed.length = (ids.length + 2) / 3 ∧
    (postIngest s clock body env).state.processingQueue.Perm
      (s.processingQueue ++ (postIngest s clock body env).pushed) ∧
    (∃ request,
      mapGet (postIngest s clock body env).state.requests env.ingestionId = some request ∧
      (postIngest s clock body env).pushed.length = request.batches.length ∧
      ∀ (k : Nat) (e : QueueEntry), (postIngest s clock body env).pushed[k]? = some e →
        ∃ b, request.batches[k]? = some b ∧ e.batchId = b.batchId ∧ e.ids = b.ids ∧
          e.ingestionId = env.ingestionId ∧ e.priority = body.priority) ∧
    (∀ id, id ≠ env.ingestionId →
      mapGet (postIngest s clock body env).state.requests id = mapGet s.requests id) ∧
    (mapGet s.requests env.ingestionId = none → ∀ id request,
      mapGet s.requests id = some request →
      mapGet (postIngest s clock body env).state.requests id = some request) := by
  obtain ⟨ids', pv, hb, _, _, hpushed, hst, _, _⟩ := postIngest_ok s clock body env hok
  rw [hids] at hb
  cases hb
  have hne : ∀ id, id ≠ env.ingestionId →
      mapGet (postIngest s clock body env).state.requests id = mapGet s.requests id := by
    intro id hid
    rw [hst]
    exact mapGet_mapSet_ne _ _ _ _ hid
  refine ⟨?_, ?_, ?_, hne, ?_⟩
  · rw [hpushed, List.length_map, makeBatches_length]
  · rw [hst, hpushed]
    exact sortQueue_perm _
  · rw [hst, hpushed]
    refine ⟨_, mapGet_mapSet_self _ _ _, by rw [List.length_map], ?_⟩
    intro k e hk
    rw [List.getElem?_map] at hk
    cases hbk : (makeBatches ids env clock)[k]? with
    | none =>
      rw [hbk] at hk
      cases hk
    | some b =>
      rw [hbk] at hk
      simp only [Option.map_some', Option.some.injEq] at hk
      subst hk
      exact ⟨b, rfl, rfl, rfl, rfl, rfl⟩
  · intro hfresh id request hreq
    have hid : id ≠ env.ingestionId := by
      intro hid
      rw [hid, hfresh] at hreq
      cases hreq
    rw [hne id hid]
    exact hreq

theorem ingest_frame_witness :
    (postIngest lowQueued.state lowQueued.clock highBody (envOf "high")).pushed.length
      = (4 + 2) / 3 ∧
    (postIngest lowQueued.state lowQueued.clock highBody (envOf "high")).state.processingQueue.Perm
      (lowQueued.state.processingQueue ++
        (postIngest lowQueued.state lowQueued.clock highBody (envOf "high")).pushed) ∧
    (∀ id, id ≠ "high" →
      mapGet (postIngest lowQueued.state lowQueued.clock highBody (envOf "high")).state.requests id
        = mapGet lowQueued.state.requests id) :=
  ⟨(ingest_frame lowQueued.state lowQueued.clock highBody (envOf "high") _ rfl (by decide)).1,
    (ingest_frame lowQueued.state lowQueued.clock highBody (envOf "high") _ rfl (by decide)).2.1,
    (ingest_frame lowQueued.state lowQueued.clock highBody (envOf "high") _ rfl
      (by decide)).2.2.2.1⟩

/-! ## Statuses only move forward -/

theorem startBatch_status (s : Sys) :
    (∀ b, inFlight (startBatch s).1.dispatcher = some b → ∃ e0 ∈ s.state.processingQueue,
      b = { e0 with status := BatchStatus.TRIGGERED }) ∧
    (∀ e t, Obs.completed e t ∈ (startBatch s).2 → ∃ b,
      e = { b with status := BatchStatus.COMPLETED } ∧ b.status = BatchStatus.TRIGGERED ∧
      ∃ e0 ∈ s.state.processingQueue, b = { e0 with status := BatchStatus.TRIGGERED }) := by
  unfold startBatch
  cases hq : s.state.processingQueue with
  | nil => simp [inFlight]
  | cons batch rest =>
    dsimp only
    cases hr : mapGet s.state.requests batch.ingestionId with
    | none => simp [inFlight]
    | some req =>
      dsimp only
      cases hi : batch.ids with
      | nil =>
        constructor
        · intro b hb
          simp [finishBatch, inFlight] at hb
        · intro e t he
          simp only [finishBatch, List.mem_cons, List.mem_singleton, Obs.completed.injEq,
            reduceCtorEq, false_or, List.not_mem_nil, or_false] at he
          refine ⟨{ batch with status := BatchStatus.TRIGGERED }, ?_, rfl, batch, ?_, rfl⟩
          · rw [he.1, hi]
          · exact List.mem_cons_self _ _
      | cons id ids =>
        constructor
        · intro b hb
          simp only [inFlight, Option.some.injEq] at hb
          refine ⟨batch, List.mem_cons_self _ _, ?_⟩
          rw [hi]
          exact hb.symm
        · intro e t he
          simp at he

theorem loopHead_status (s : Sys) :
    (∀ b, inFlight (loopHead s).1.dispatcher = some b → ∃ e0 ∈ s.state.processingQueue,
      b = { e0 with status := BatchStatus.TRIGGERED }) ∧
    (∀ e t, Obs.completed e t ∈ (loopHead s).2 → ∃ b,
      e = { b with status := BatchStatus.COMPLETED } ∧ b.status = BatchStatus.TRIGGERED ∧
      ∃ e0 ∈ s.state.processingQueue, b = { e0 with status := BatchStatus.TRIGGERED }) := by
  unfold loopHead
  by_cases hq : s.state.processingQueue.length > 0
  · rw [if_pos hq]
    dsimp only
    cases hl : s.state.lastProcessedTime with
    | none => exact startBatch_status s
    | some last =>
      dsimp only
      split_ifs
      · simp [inFlight]
      · exact startBatch_status s
  · rw [if_neg hq]
    simp [inFlight]

/-- The status writes of the dispatcher: the entry it works on afterwards is the
one it worked on before or a queued entry marked triggered, and a completed
entry is a triggered one marked completed. -/
theorem resume_status (s : Sys) (h : StatusInv s) :
    (∀ b, inFlight (resume s).1.dispatcher = some b → inFlight s.dispatcher = some b ∨
      ∃ e0 ∈ s.state.processingQueue, b = { e0 with status := BatchStatus.TRIGGERED }) ∧
    (∀ e t, Obs.completed e t ∈ (resume s).2 → ∃ b,
      e = { b with status := BatchStatus.COMPLETED } ∧ b.status = BatchStatus.TRIGGERED ∧
      (inFlight s.dispatcher = some b ∨
        ∃ e0 ∈ s.state.processingQueue, b = { e0 with status := BatchStatus.TRIGGERED })) := by
  have lift : ∀ r : Sys × List Obs,
      ((∀ b, inFlight r.1.dispatcher = some b → ∃ e0 ∈ s.state.processingQueue,
        b = { e0 with status := BatchStatus.TRIGGERED }) ∧
      (∀ e t, Obs.completed e t ∈ r.2 → ∃ b,
        e = { b with status := BatchStatus.COMPLETED } ∧ b.status = BatchStatus.TRIGGERED ∧
        ∃ e0 ∈ s.state.processingQueue, b = { e0 with status := BatchStatus.TRIGGERED })) →
      ((∀ b, inFlight r.1.dispatcher = some b → inFlight s.dispatcher = some b ∨
        ∃ e0 ∈ s.state.processingQueue, b = { e0 with status := BatchStatus.TRIGGERED }) ∧
      (∀ e t, Obs.completed e t ∈ r.2 → ∃ b,
        e = { b with status := BatchStatus.COMPLETED } ∧ b.status = BatchStatus.TRIGGERED ∧
        (inFlight s.dispatcher = some b ∨
          ∃ e0 ∈ s.state.processingQueue, b = { e0 with status := BatchStatus.TRIGGERED }))) := by
    intro r ⟨h1, h2⟩
    refine ⟨fun b hb => Or.inr (h1 b hb), ?_⟩
    intro e t he
    obtain ⟨b, g1, g2, g3⟩ := h2 e t he
    exact ⟨b, g1, g2, Or.inr g3⟩
  have same : (∀ b, inFlight s.dispatcher = some b → inFlight s.dispatcher = some b ∨
        ∃ e0 ∈ s.state.processingQueue, b = { e0 with status := BatchStatus.TRIGGERED }) ∧
      (∀ e t, Obs.completed e t ∈ ([] : List Obs) → ∃ b,
        e = { b with status := BatchStatus.COMPLETED } ∧ b.status = BatchStatus.TRIGGERED ∧
        (inFlight s.dispatcher = some b ∨
          ∃ e0 ∈ s.state.processingQueue, b = { e0 with status := BatchStatus.TRIGGERED })) :=
    ⟨fun b hb => Or.inl hb, fun e t he => absurd he (List.not_mem_nil _)⟩
  unfold resume
  cases hd : s.dispatcher with
  | loopTop =>
    have := lift _ (loopHead_status s)
    rw [hd] at this
    exact this
  | idle wake =>
    dsimp only
    split_ifs
    · have := lift _ (loopHead_status s)
      rw [hd] at this
      exact this
    · rw [hd] at same
      simpa [hd] using same
  | throttled wake =>
    dsimp only
    split_ifs
    · have := lift _ (startBatch_status s)
      rw [hd] at this
      exact this
    · rw [hd] at same
      simpa [hd] using same
  | crashed =>
    rw [hd] at same
    simpa [hd] using same
  | working batch remaining wake =>
    have hbs : batch.status = BatchStatus.TRIGGERED := h.2 batch (by rw [hd]; rfl)
    dsimp only
    split_ifs
    · split
      · constructor
        · intro b hb
          left
          simpa [inFlight] using hb
        · intro e t he
          simp at he
      · have hl := loopHead_status (finishBatch s batch).1
        have hqueue : (finishBatch s batch).1.state.processingQueue = s.state.processingQueue :=
          (finishBatch_effect s batch).2.2.1
        rw [hqueue] at hl
        constructor
        · intro b hb
          exact Or.inr (hl.1 b hb)
        · intro e t he
          rcases List.mem_append.mp he with he | he
          · simp only [finishBatch, List.mem_singleton, Obs.completed.injEq] at he
            exact ⟨batch, he.1, hbs, Or.inl rfl⟩
          · obtain ⟨b, g1, g2, g3⟩ := hl.2 e t he
            exact ⟨b, g1, g2, Or.inr g3⟩
    · constructor
      · intro b hb
        left
        rw [hd] at hb
        exact hb
      · intro e t he
        simp at he

theorem step_queue_mem (s : Sys) (ev : Event) :
    ∀ e ∈ (step s ev).1.state.processingQueue, e ∈ s.state.processingQueue ∨
      (e ∈ pushedLog (step s ev).2 ∧ e.status = BatchStatus.YET_TO_START) := by
  intro e he
  rcases (step_cases s ev).2 with ⟨hq, _, _⟩ | ⟨hq, _, _, ⟨body, env, _, hpu, hok⟩, _⟩ | ⟨x, hq, _, _⟩
  · rw [hq] at he
    exact Or.inl he
  · rw [hq, mem_sortQueue] at he
    rcases List.mem_append.mp he with he | he
    · exact Or.inl he
    · right
      refine ⟨he, ?_⟩
      rw [hpu] at he
      rcases postIngest_cases s.state s.clock body env with ⟨_, _, _, h400⟩ | ⟨_, _, _, _, _, _, h5⟩
      · rw [hok] at h400
        exact absurd h400 (by decide)
      · exact (h5 e he).2.2.2.1
  · left
    rw [hq]
    exact List.mem_cons_of_mem _ he

theorem step_inFlight (s : Sys) (ev : Event) (h : StatusInv s) :
    (∀ b, inFlight (step s ev).1.dispatcher = some b → inFlight s.dispatcher = some b ∨
      ∃ e0 ∈ s.state.processingQueue, b = { e0 with status := BatchStatus.TRIGGERED }) ∧
    (∀ e t, Obs.completed e t ∈ (step s ev).2 → ∃ b,
      e = { b with status := BatchStatus.COMPLETED } ∧ b.status = BatchStatus.TRIGGERED ∧
      (inFlight s.dispatcher = some b ∨
        ∃ e0 ∈ s.state.processingQueue, b = { e0 with status := BatchStatus.TRIGGERED })) := by
  cases ev with
  | timer => exact resume_status s h
  | tick ms =>
    refine ⟨fun b hb => Or.inl hb, ?_⟩
    intro e t he
    simp [step] at he
  | status id =>
    refine ⟨fun b hb => Or.inl hb, ?_⟩
    intro e t he
    simp [step] at he
  | ingest body env =>
    refine ⟨fun b hb => Or.inl hb, ?_⟩
    intro e t he
    simp [step] at he

theorem statusInv_step (s : Sys) (ev : Event) (h : StatusInv s) : StatusInv (step s ev).1 := by
  constructor
  · intro e he
    rcases step_queue_mem s ev e he with h1 | h1
    · exact h.1 e h1
    · exact h1.2
  · intro b hb
    rcases (step_inFlight s ev h).1 b hb with h1 | ⟨e0, _, h1⟩
    · exact h.2 b h1
    · rw [h1]

theorem statusInv_reachable (s : Sys) (hs : Reachable s) : StatusInv s := by
  obtain ⟨clock, evs, _, rfl⟩ := hs
  have := run_invariant (fun s _ => StatusInv s) (fun s _ ev h => statusInv_step s ev h)
    evs (Sys.init clock) [] (by simp [StatusInv, Sys.init, State.init, inFlight])
  exact this

/-- C11: no event moves a status backwards in the order yet_to_start, triggered,
completed. From a reachable state, after any event: a batch record of the store
has a status of rank not below the one it had; an entry of the queue was
already there, unchanged, or has just been pushed with status yet_to_start; the
entry the dispatcher works on is the one it worked on before or a queued entry
marked triggered; and an entry is marked completed only from triggered. -/
theorem status_never_regresses (s : Sys) (hs : Reachable s) (ev : Event) :
    (∀ (id : String) (request request' : Request) (k : Nat) (b b' : Batch),
      mapGet s.state.requests id = some request →
      mapGet (step s ev).1.state.requests id = some request' →
      request.batches[k]? = some b → request'.batches[k]? = some b' →
      b.status.rank ≤ b'.status.rank) ∧
    (∀ e ∈ (step s ev).1.state.processingQueue, e ∈ s.state.processingQueue ∨
      (e ∈ pushedLog (step s ev).2 ∧ e.status = BatchStatus.YET_TO_START)) ∧
    (∀ b, inFlight (step s ev).1.dispatcher = some b → inFlight s.dispatcher = some b ∨
      ∃ e0 ∈ s.state.processingQueue, b = { e0 with status := BatchStatus.TRIGGERED } ∧
        e0.status.rank ≤ b.status.rank) ∧
    (∀ e t, Obs.completed e t ∈ (step s ev).2 → ∃ b,
      e = { b with status := BatchStatus.COMPLETED } ∧ b.status.rank ≤ e.status.rank ∧
      (inFlight s.dispatcher = some b ∨
        ∃ e0 ∈ s.state.processingQueue, b = { e0 with status := BatchStatus.TRIGGERED } ∧
          e0.status.rank ≤ b.status.rank)) := by
  have hstore := storeInv_reachable s hs
  have hstore' := storeInv_step s ev hstore
  have hstat := statusInv_reachable s hs
  obtain ⟨h1, h2⟩ := step_inFlight s ev hstat
  refine ⟨?_, step_queue_mem s ev, ?_, ?_⟩
  · intro id request request' k b b' hr hr' hb hb'
    have e1 := hstore (id, request) (mapGet_mem _ _ _ hr) b (List.getElem?_mem hb)
    have e2 := hstore' (id, request') (mapGet_mem _ _ _ hr') b' (List.getElem?_mem hb')
    rw [e1, e2]
  · intro b hb
    rcases h1 b hb with h | ⟨e0, he0, h⟩
    · exact Or.inl h
    · refine Or.inr ⟨e0, he0, h, ?_⟩
      rw [hstat.1 e0 he0, h]
      simp [BatchStatus.rank]
  · intro e t he
    obtain ⟨b, g1, g2, g3⟩ := h2 e t he
    refine ⟨b, g1, ?_, ?_⟩
    · rw [g2, g1]
      simp [BatchStatus.rank]
    · rcases g3 with g3 | ⟨e0, he0, g3⟩
      · exact Or.inl g3
      · refine Or.inr ⟨e0, he0, g3, ?_⟩
        rw [hstat.1 e0 he0, g3]
        simp [BatchStatus.rank]

theorem status_never_regresses_witness :
    (run (Sys.init 0) untilStarted).1.dispatcher =
      Dispatcher.working { queuedEntry with status := BatchStatus.TRIGGERED } [.int 1] 2000 ∧
    (step (run (Sys.init 0) [Event.ingest oneId (envOf "a"), Event.tick 1000]).1 Event.timer).2 =
      [Obs.shifted queuedEntry,
       Obs.triggered { queuedEntry with status := BatchStatus.TRIGGERED } 1000] ∧
    (∀ b, inFlight (step (run (Sys.init 0) [Event.ingest oneId (envOf "a"), Event.tick 1000]).1
        Event.timer).1.dispatcher = some b →
      inFlight (run (Sys.init 0) [Event.ingest oneId (envOf "a"), Event.tick 1000]).1.dispatcher
        = some b ∨
      ∃ e0 ∈ (run (Sys.init 0)
          [Event.ingest oneId (envOf "a"), Event.tick 1000]).1.state.processingQueue,
        b = { e0 with status := BatchStatus.TRIGGERED } ∧ e0.status.rank ≤ b.status.rank) :=
  ⟨rfl, rfl,
    (status_never_regresses (run (Sys.init 0) [Event.ingest oneId (envOf "a"), Event.tick 1000]).1
      ⟨0, _, by decide, rfl⟩ Event.timer).2.2.1⟩

/-! ## Pending batches and their queue entries -/

/-- C12, evaluated: the dispatcher has shifted the only entry of a submission;
the batch record of the store still has status yet_to_start, and no entry of
the queue carries its batch identifier. -/
theorem pending_batch_without_entry :
    (∃ request, mapGet (run (Sys.init 0) untilStarted).1.state.requests "a" = some request ∧
      request.batches = [storedBatch]) ∧
    storedBatch.status = BatchStatus.YET_TO_START ∧
    ((run (Sys.init 0) untilStarted).1.state.processingQueue.filter
      (fun e => e.batchId = storedBatch.batchId)).length = 0 ∧
    shiftedLog (run (Sys.init 0) untilStarted).2 = [queuedEntry] ∧
    queuedEntry.batchId = storedBatch.batchId := by
  refine ⟨⟨_, rfl, rfl⟩, rfl, rfl, rfl, rfl⟩

/-! ## Runs with fresh identifiers -/

theorem freshRun_invariant (I : Sys → Prop)
    (hstep : ∀ s ev, I s → FreshEvent s ev → I (step s ev).1) :
    ∀ evs s, I s → FreshRun s evs → I (run s evs).1 := by
  intro evs
  induction evs with
  | nil => intro s h _; exact h
  | cons ev evs ih =>
    intro s h hf
    exact ih (step s ev).1 (hstep s ev h hf.1) hf.2

theorem mapGet_fresh_step (s : Sys) (ev : Event) (id : String) (request : Request)
    (h : mapGet s.state.requests id = some request) (hf : FreshEvent s ev) :
    mapGet (step s ev).1.state.requests id = some request := by
  rcases step_requests s ev with h1 | ⟨body, env, ids, hev, _, _, c, h1⟩
  · rw [h1]; exact h
  · rw [h1]
    subst hev
    have hfresh : mapGet s.state.requests env.ingestionId = none := hf.1
    have hid : id ≠ env.ingestionId := by
      intro hid
      rw [hid, hfresh] at h
      cases h
    rw [mapGet_mapSet_ne _ _ _ _ hid]
    exact h

theorem mapGet_fresh_run (evs : List Event) (s : Sys) (id : String) (request : Request)
    (h : mapGet s.state.requests id = some request) (hf : FreshRun s evs) :
    mapGet (run s evs).1.state.requests id = some request :=
  freshRun_invariant (fun s => mapGet s.state.requests id = some request)
    (fun s ev h hf => mapGet_fresh_step s ev id request h hf) evs s h hf

/-! ## A submission without identifiers -/

/-- C14 as stated fails: a submission created from an empty list is accepted,
stored without batches, and `GET /status` answers `completed` for it, not
`yet_to_start`. -/
theorem empty_submission_not_pending :
    (postIngest State.init 0 emptyIds (envOf "a")).response = IngestResponse.ok "a" ∧
    getStatus (postIngest State.init 0 emptyIds (envOf "a")).state "a" =
      StatusResponse.ok "a" OverallStatus.COMPLETED [] ∧
    ∀ batches, getStatus (postIngest State.init 0 emptyIds (envOf "a")).state "a" ≠
      StatusResponse.ok "a" OverallStatus.YET_TO_START batches := by
  refine ⟨rfl, rfl, ?_⟩
  intro batches h
  have e : getStatus (postIngest State.init 0 emptyIds (envOf "a")).state "a" =
      StatusResponse.ok "a" OverallStatus.COMPLETED [] := rfl
  rw [e] at h
  cases h

/-- C14, amended: a submission created from an empty list of identifiers is
stored without batches, and in every state reached afterwards (the identifiers
generated later being fresh) `GET /status` answers 200 with overall status
`completed`. -/
theorem empty_submission_completed (s : Sys) (body : Body) (env : IngestEnv)
    (hids : body.ids = JsVal.arr [])
    (hok : (postIngest s.state s.clock body env).response.code = 200)
    (evs : List Event) (hf : FreshRun (step s (Event.ingest body env)).1 evs) :
    (∃ request,
      mapGet (run (step s (Event.ingest body env)).1 evs).1.state.requests env.ingestionId
        = some request ∧ request.batches = []) ∧
    getStatus (run (step s (Event.ingest body env)).1 evs).1.state env.ingestionId =
      StatusResponse.ok env.ingestionId OverallStatus.COMPLETED [] := by
  obtain ⟨ids, pv, hb, _, _, _, hst, _, _⟩ := postIngest_ok s.state s.clock body env hok
  rw [hids] at hb
  cases hb
  have h1 : mapGet (step s (Event.ingest body env)).1.state.requests env.ingestionId =
      some { ingestionId := env.ingestionId
             ids := []
             priority := body.priority
             batches := makeBatches [] env s.clock
             createdAt := lastReading s.clock (makeBatches [] env s.clock) + env.finalDelay } := by
    show mapGet (postIngest s.state s.clock body env).state.requests env.ingestionId = _
    rw [hst]
    exact mapGet_mapSet_self _ _ _
  have h2 := mapGet_fresh_run evs _ _ _ h1 hf
  refine ⟨⟨_, h2, rfl⟩, ?_⟩
  unfold getStatus
  rw [h2]
  rfl

theorem empty_submission_completed_witness :
    emptyIds.ids = JsVal.arr [] ∧
    FreshRun (step (Sys.init 0) (Event.ingest emptyIds (envOf "e"))).1
      [Event.tick 1000, Event.timer, Event.tick 1000] ∧
    getStatus (run (step (Sys.init 0) (Event.ingest emptyIds (envOf "e"))).1
      [Event.tick 1000, Event.timer, Event.tick 1000]).1.state "e" =
      StatusResponse.ok "e" OverallStatus.COMPLETED [] :=
  ⟨rfl, ⟨trivial, trivial, trivial, trivial⟩,
    (empty_submission_completed (Sys.init 0) emptyIds (envOf "e") rfl (by decide)
      [Event.tick 1000, Event.timer, Event.tick 1000] ⟨trivial, trivial, trivial, trivial⟩).2⟩

/-! ## Queue entries and the requests they belong to -/

theorem makeBatches_batchId_nodup (ids : List JsVal) (env : IngestEnv) (clock : Int)
    (hinj : ∀ i, i < ids.length → ∀ j, j < ids.length →
      env.batchUuid i = env.batchUuid j → i = j) :
    ((makeBatches ids env clock).map Batch.batchId).Nodup := by
  rw [List.nodup_iff_getElem?_ne_getElem?]
  intro i j hij hj
  rw [List.length_map, makeBatches_length] at hj
  have hlen := makeBatches_length ids env clock
  rw [List.getElem?_map, List.getElem?_map]
  cases hbi : (makeBatches ids env clock)[i]? with
  | none =>
    exfalso
    rw [List.getElem?_eq_none_iff] at hbi
    omega
  | some bi =>
    cases hbj : (makeBatches ids env clock)[j]? with
    | none =>
      exfalso
      rw [List.getElem?_eq_none_iff] at hbj
      omega
    | some bj =>
      intro heq
      simp only [Option.map_some', Option.some.injEq] at heq
      have h1 := (splitLoop_getElem? ids env _ 0 clock i bi hbi).2.2
      have h2 := (splitLoop_getElem? ids env _ 0 clock j bj hbj).2.2
      rw [h1, h2] at heq
      have := hinj (0 + 3 * i) (by omega) (0 + 3 * j) (by omega) heq
      omega

theorem linkInv_step (s : Sys) (ev : Event) (h : LinkInv s.state) (hf : FreshEvent s ev) :
    LinkInv (step s ev).1.state := by
  cases ev with
  | tick ms => exact h
  | status id => exact h
  | timer =>
    obtain ⟨_, hreq, _, hq⟩ := resume_effect s
    intro e he
    show ∃ request, mapGet (resume s).1.state.requests e.ingestionId = some request ∧ _
    rw [hreq]
    apply h e
    rcases hq with ⟨hq, _⟩ | ⟨x, hq, _⟩
    · have he2 : e ∈ (resume s).1.state.processingQueue := he
      rw [hq] at he2
      exact he2
    · rw [hq]
      exact List.mem_cons_of_mem _ he
  | ingest body env =>
    rcases postIngest_cases s.state s.clock body env with ⟨h1, _, _, _⟩ | ⟨hok, _⟩
    · show LinkInv (postIngest s.state s.clock body env).state
      rw [h1]
      exact h
    · obtain ⟨ids, pv, hb, _, _, _, hst, _, _⟩ := postIngest_ok s.state s.clock body env hok
      obtain ⟨hfresh, hinj⟩ := hf
      show LinkInv (postIngest s.state s.clock body env).state
      rw [hst]
      intro e he
      dsimp only at he ⊢
      rw [mem_sortQueue] at he
      rcases List.mem_append.mp he with he | he
      · obtain ⟨request, hr, hc⟩ := h e he
        have hid : e.ingestionId ≠ env.ingestionId := by
          intro hid
          rw [hid, hfresh] at hr
          cases hr
        exact ⟨request, by rw [mapGet_mapSet_ne _ _ _ _ hid]; exact hr, hc⟩
      · obtain ⟨b, hbm, rfl⟩ := List.mem_map.mp he
        refine ⟨_, mapGet_mapSet_self _ _ _, ?_⟩
        apply List.count_eq_one_of_mem
        · exact makeBatches_batchId_nodup ids env s.clock (hinj ids hb)
        · exact List.mem_map.mpr ⟨b, hbm, rfl⟩

theorem linkInv_run (evs : List Event) (s : Sys) (h : LinkInv s.state) (hf : FreshRun s evs) :
    LinkInv (run s evs).1.state :=
  freshRun_invariant (fun s => LinkInv s.state) linkInv_step evs s h hf

/-- C13: along a run in which every request gets fresh identifiers, every entry
of the queue names a stored request, and exactly one batch of that request
carries the entry's batch identifier; so when the dispatcher shifts the head of
the queue it finds the request and marks the entry triggered. -/
theorem queue_entries_linked (clock : Int) (evs : List Event)
    (hf : FreshRun (Sys.init clock) evs) :
    (∀ e ∈ (run (Sys.init clock) evs).1.state.processingQueue, ∃ request,
      mapGet (run (Sys.init clock) evs).1.state.requests e.ingestionId = some request ∧
      (request.batches.map Batch.batchId).count e.batchId = 1) ∧
    ∀ e rest, (run (Sys.init clock) evs).1.state.processingQueue = e :: rest →
      (startBatch (run (Sys.init clock) evs).1).2 ≠ [Obs.shifted e] ∧
      Obs.triggered { e with status := BatchStatus.TRIGGERED } (run (Sys.init clock) evs).1.clock
        ∈ (startBatch (run (Sys.init clock) evs).1).2 := by
  have hinv : LinkInv (run (Sys.init clock) evs).1.state :=
    linkInv_run evs (Sys.init clock) (by intro e he; simp [Sys.init, State.init] at he) hf
  refine ⟨hinv, ?_⟩
  intro e rest hq
  obtain ⟨request, hr, _⟩ := hinv e (by rw [hq]; exact List.mem_cons_self _ _)
  unfold startBatch
  rw [hq]
  dsimp only
  rw [hr]
  dsimp only
  cases hi : e.ids with
  | nil => simp [finishBatch]
  | cons id ids => simp

theorem queue_entries_linked_witness :
    FreshRun (Sys.init 0) lowThenHigh ∧
    ∀ e ∈ (run (Sys.init 0) lowThenHigh).1.state.processingQueue, ∃ request,
      mapGet (run (Sys.init 0) lowThenHigh).1.state.requests e.ingestionId = some request ∧
      (request.batches.map Batch.batchId).count e.batchId = 1 :=
  have hf : FreshRun (Sys.init 0) lowThenHigh := by
    refine ⟨⟨rfl, ?_⟩, trivial, ⟨rfl, ?_⟩, trivial⟩
    · intro ids h
      cases h
      decide
    · intro ids h
      cases h
      decide
  ⟨hf, (queue_entries_linked 0 lowThenHigh hf).1⟩

/-! ## The throttle wait -/

theorem startBatch_timer (s : Sys) (h0 : 0 ≤ s.clock)
    (hids : ∀ e ∈ s.state.processingQueue, e.ids ≠ [])
    (hlast : ∀ last, s.state.lastProcessedTime = some last → 0 < last ∧ last ≤ s.clock) :
    TimerInv (startBatch s).1 := by
  unfold startBatch
  cases hq : s.state.processingQueue with
  | nil => exact ⟨h0, by simp [hq], hlast, by simp⟩
  | cons batch rest =>
    have hrest : ∀ e ∈ rest, e.ids ≠ [] := fun e he =>
      hids e (by rw [hq]; exact List.mem_cons_of_mem _ he)
    dsimp only
    cases hr : mapGet s.state.requests batch.ingestionId with
    | none => exact ⟨h0, hrest, hlast, by simp⟩
    | some req =>
      dsimp only
      cases hi : batch.ids with
      | nil => exact absurd hi (hids batch (by rw [hq]; exact List.mem_cons_self _ _))
      | cons id ids =>
        refine ⟨h0, hrest, hlast, ?_⟩
        intro b rem w hw
        simp only [Dispatcher.working.injEq] at hw
        have : w = s.clock + 1000 := hw.2.2.symm
        omega

theorem loopHead_timer (s : Sys) (h0 : 0 ≤ s.clock)
    (hids : ∀ e ∈ s.state.processingQueue, e.ids ≠ [])
    (hlast : ∀ last, s.state.lastProcessedTime = some last → 0 < last ∧ last ≤ s.clock) :
    TimerInv (loopHead s).1 := by
  unfold loopHead
  by_cases hq : s.state.processingQueue.length > 0
  · rw [if_pos hq]
    dsimp only
    cases hl : s.state.lastProcessedTime with
    | none => exact startBatch_timer s h0 hids hlast
    | some last =>
      dsimp only
      split_ifs
      · exact ⟨h0, hids, hlast, by simp⟩
      · exact startBatch_timer s h0 hids hlast
  · rw [if_neg hq]
    exact ⟨h0, hids, hlast, by simp⟩

theorem resume_timer (s : Sys) (h : TimerInv s) : TimerInv (resume s).1 := by
  obtain ⟨h0, hids, hlast, hw⟩ := h
  unfold resume
  cases hd : s.dispatcher with
  | loopTop => exact loopHead_timer s h0 hids hlast
  | idle wake =>
    dsimp only
    split_ifs
    · exact loopHead_timer s h0 hids hlast
    · exact ⟨h0, hids, hlast, by rw [hd]; simp⟩
  | throttled wake =>
    dsimp only
    split_ifs
    · exact startBatch_timer s h0 hids hlast
    · exact ⟨h0, hids, hlast, by rw [hd]; simp⟩
  | crashed => exact ⟨h0, hids, hlast, by rw [hd]; simp⟩
  | working batch remaining wake =>
    have hwake : 1000 ≤ wake := hw batch remaining wake hd
    dsimp only
    by_cases hc : wake ≤ s.clock
    · rw [if_pos hc]
      split
      · refine ⟨h0, hids, hlast, ?_⟩
        intro b rem w hw2
        simp only [Dispatcher.working.injEq] at hw2
        have : w = s.clock + 1000 := hw2.2.2.symm
        omega
      · apply loopHead_timer
        · exact h0
        · exact hids
        · intro last hl
          have : last = s.clock := by
            simp only [finishBatch, Option.some.injEq] at hl
            exact hl.symm
          rw [this]
          show 0 < s.clock ∧ s.clock ≤ s.clock
          omega
    · rw [if_neg hc]
      refine ⟨h0, hids, hlast, ?_⟩
      intro b rem w hw2
      rw [hd] at hw2
      simp only [Dispatcher.working.injEq] at hw2
      omega

theorem timerInv_step (s : Sys) (ev : Event) (h : TimerInv s) : TimerInv (step s ev).1 := by
  cases ev with
  | timer => exact resume_timer s h
  | status id => exact h
  | tick ms =>
    obtain ⟨h0, hids, hlast, hw⟩ := h
    have : (0 : Int) ≤ ms := Int.ofNat_nonneg _
    refine ⟨by show 0 ≤ s.clock + ms; omega, hids, ?_, hw⟩
    intro last hl
    have := hlast last hl
    exact ⟨this.1, by show last ≤ s.clock + ms; omega⟩
  | ingest body env =>
    obtain ⟨h0, hids, hlast, hw⟩ := h
    have e1 : (step s (Event.ingest body env)).1.state = (postIngest s.state s.clock body env).state :=
      rfl
    have e2 : (step s (Event.ingest body env)).1.clock = (postIngest s.state s.clock body env).clock :=
      rfl
    have e3 : (step s (Event.ingest body env)).1.dispatcher = s.dispatcher := rfl
    unfold TimerInv
    rw [e1, e2, e3]
    rcases postIngest_cases s.state s.clock body env with
      ⟨h1, h2, _, _⟩ | ⟨_, h2, h3, h4, _, _, h5⟩
    · rw [h1, h2]
      exact ⟨h0, hids, hlast, hw⟩
    · refine ⟨by omega, ?_, ?_, hw⟩
      · intro e he
        rw [h2, mem_sortQueue] at he
        rcases List.mem_append.mp he with he | he
        · exact hids e he
        · exact (h5 e he).2.2.1
      · intro last hl
        rw [h3] at hl
        have := hlast last hl
        exact ⟨this.1, by omega⟩

theorem timerInv_reachable (s : Sys) (hs : Reachable s) : TimerInv s := by
  obtain ⟨clock, evs, h0, rfl⟩ := hs
  have := run_invariant (fun s _ => TimerInv s) (fun s _ ev h => timerInv_step s ev h)
    evs (Sys.init clock) [] ?_
  · exact this
  · refine ⟨h0, ?_, ?_, ?_⟩
    · simp [Sys.init, State.init]
    · simp [Sys.init, State.init]
    · simp [Sys.init]

/-- C18: in a reachable state whose queue is not empty, the pass of the
dispatcher through the head of its loop shifts the head of the queue at once
when `lastProcessedTime` is unset, and also when it is set and at least
5000 ms have elapsed since; when it is set and the elapsed time `e` is below
5000 ms, nothing is shifted and the timeout requested is `5000 - e` ms, the
dispatcher waking at `now + (5000 - e)`. -/
theorem throttle_wait (s : Sys) (hs : Reachable s) (e : QueueEntry) (rest : List QueueEntry)
    (hq : s.state.processingQueue = e :: rest) :
    (s.state.lastProcessedTime = none →
      loopHead s = startBatch s ∧ shiftedLog (loopHead s).2 = [e]) ∧
    (∀ last, s.state.lastProcessedTime = some last → s.clock - last < 5000 →
      (loopHead s).1.dispatcher = Dispatcher.throttled (s.clock + (5000 - (s.clock - last))) ∧
      (loopHead s).1.state = s.state ∧ (loopHead s).2 = []) ∧
    (∀ last, s.state.lastProcessedTime = some last → 5000 ≤ s.clock - last →
      loopHead s = startBatch s ∧ shiftedLog (loopHead s).2 = [e]) := by
  have hlen : s.state.processingQueue.length > 0 := by rw [hq]; simp
  have hinv := timerInv_reachable s hs
  have hshift := (startBatch_shift s e rest hq).1
  refine ⟨?_, ?_, ?_⟩
  · intro hl
    have : loopHead s = startBatch s := by
      unfold loopHead
      rw [if_pos hlen]
      dsimp only
      rw [hl]
    rw [this]
    exact ⟨rfl, hshift⟩
  · intro last hl he
    have hpos := (hinv.2.2.1 last hl).1
    have hc : last ≠ 0 ∧ s.clock - last < 5000 := ⟨by omega, he⟩
    unfold loopHead
    rw [if_pos hlen]
    dsimp only
    rw [hl]
    dsimp only
    rw [if_pos hc]
    exact ⟨rfl, rfl, rfl⟩
  · intro last hl he
    have hc : ¬ (last ≠ 0 ∧ s.clock - last < 5000) := by
      intro h
      omega
    have : loopHead s = startBatch s := by
      unfold loopHead
      rw [if_pos hlen]
      dsimp only
      rw [hl]
      dsimp only
      rw [if_neg hc]
    rw [this]
    exact ⟨rfl, hshift⟩

theorem throttle_wait_witness :
    (run (Sys.init 0) afterFirstBatch).1.state.lastProcessedTime = some 4000 ∧
    (run (Sys.init 0) afterFirstBatch).1.clock = 6000 ∧
    (run (Sys.init 0) afterFirstBatch).1.state.processingQueue.map (fun e => e.batchId)
      = ["low-3"] ∧
    (loopHead (run (Sys.init 0) afterFirstBatch).1).1.dispatcher = Dispatcher.throttled 9000 ∧
    (loopHead (run (Sys.init 0) afterFirstBatch).1).1.state
      = (run (Sys.init 0) afterFirstBatch).1.state ∧
    (loopHead (run (Sys.init 0) afterFirstBatch).1).2 = [] :=
  ⟨rfl, rfl, by decide,
    (throttle_wait (run (Sys.init 0) afterFirstBatch).1 ⟨0, afterFirstBatch, by decide, rfl⟩
      _ _ rfl).2.1 4000 rfl (by decide)⟩

end Ingestion
